import Mathlib

/-!
# Verification of `src/utils/routeOptimization.ts`

A shallow embedding of the route-optimization core (Dijkstra shortest path
and greedy multi-stop routing) of the `optimized-route-finder` repository,
together with theorems settling the specification claims about it.

Modelling conventions:
* JavaScript numbers are modelled as rationals (`ℚ`); the source only adds
  and compares edge weights, so no floating-point-specific behaviour is
  involved in any claim.
* A JavaScript record (`Record<string, T>`) that is only read and written
  by key is modelled as a total function `String → ...` whose value at a
  key that was never written is an explicit `undefined` marker
  (the source never iterates over the keys of those records).
* A computation that the source can abort abnormally (a thrown `TypeError`
  on a malformed graph) or fail to terminate (the predecessor
  reconstruction loop running forever) is modelled in `Except Fault`:
  `Fault.typeError` for the throw, `Fault.divergence` for the infinite
  loop.  A normal JavaScript return of `null` is `Option.none` inside
  `Except.ok`.
-/

/-- A JavaScript number as used for the `distances` / `times` records of
the source: a finite number, `Infinity`, or the `undefined` read off a
missing record key (whose arithmetic/comparison behaviour matches `NaN`:
every `<` comparison involving it is `false`). -/
inductive JSNum where
  | num (q : ℚ)
  | inf
  | undefv
deriving DecidableEq, Repr

/-- JavaScript `<` on the numbers that occur in the search
(`Infinity < Infinity` is `false`; any comparison with an
`undefined`/`NaN` operand is `false`). -/
def jsLt : JSNum → JSNum → Bool
  | .num a, .num b => decide (a < b)
  | .num _, .inf => true
  | _, _ => false

/-- JavaScript `+` on the same numbers (`undefined + x` is `NaN`, which we
keep in the `undefv` constructor since only `<`-comparisons observe it). -/
def jsAdd : JSNum → JSNum → JSNum
  | .num a, .num b => .num (a + b)
  | .num _, .inf => .inf
  | .inf, .num _ => .inf
  | .inf, .inf => .inf
  | _, _ => .undefv

/-- The finite value of a `JSNum`; the source only extracts it after
guarding against `Infinity` and after a successful path reconstruction,
so the default `0` for the non-finite constructors is never reached. -/
def JSNum.toQ : JSNum → ℚ
  | .num q => q
  | .inf => 0
  | .undefv => 0

/-- A value of the `previous` record of the source: a point id, the
explicit `null` it is initialised with, or the `undefined` read off a
missing key. -/
inductive JSPrev where
  | str (s : String)
  | null
  | undefv
deriving DecidableEq, Repr

/-- Abnormal outcomes of the source that are not explicit return values:
a thrown `TypeError` (pushing onto an `undefined` adjacency entry) or a
non-terminating loop (the predecessor walk never reaching `null`). -/
inductive Fault where
  | typeError
  | divergence
deriving DecidableEq, Repr

/-- `interface Point` of the source. -/
structure Point where
  id : String
  name : String
  lat : ℚ
  lng : ℚ
deriving DecidableEq, Repr

/-- `interface Connection` of the source (`from` is a Lean keyword, hence
the guillemets). -/
structure Connection where
  «from» : String
  «to» : String
  distance : ℚ
  time : ℚ
deriving DecidableEq, Repr

/-- `interface Graph` of the source: `points` is a
`Record<string, Point>`, modelled as its (insertion-ordered) list of
key/value entries; the record itself guarantees the keys are distinct,
which the list model states as a `Nodup` hypothesis where it matters. -/
structure Graph where
  points : List (String × Point)
  connections : List Connection
deriving DecidableEq, Repr

/-- `interface Route` of the source. -/
structure Route where
  path : List String
  totalDistance : ℚ
  totalTime : ℚ
deriving DecidableEq, Repr

/-- `Object.keys(graph.points)`. -/
def pointIds (g : Graph) : List String := g.points.map Prod.fst

/-- Pointwise update of a record modelled as a function: writing
`record[k] = v`. -/
def upd {α : Type} (f : String → α) (k : String) (v : α) : String → α :=
  fun x => if x = k then v else f x

/-- Writing the same value `v` at every key of `ks` in turn (the
`forEach` initialisation loops of the source). -/
def setAll {α : Type} (ks : List String) (v : α) (f : String → α) : String → α :=
  ks.foldl (fun f k => upd f k v) f

/-- One entry `{ id, distance, time }` of the source's adjacency list. -/
structure Adj where
  id : String
  distance : ℚ
  time : ℚ
deriving DecidableEq, Repr

/-- The `graph.connections.forEach` loop populating the adjacency list:
each connection is pushed once per direction.  Pushing onto
`adjacencyList[x]` for an `x` that is not a point key reads `undefined`
and throws a `TypeError`, which aborts the whole query. -/
def addConnections : (String → Option (List Adj)) → List Connection →
    Except Fault (String → Option (List Adj))
  | m, [] => .ok m
  | m, c :: rest =>
    match m c.«from» with
    | none => .error .typeError
    | some l =>
      match upd m c.«from» (some (l ++ [⟨c.«to», c.distance, c.time⟩])) c.«to» with
      | none => .error .typeError
      | some l2 =>
        addConnections
          (upd (upd m c.«from» (some (l ++ [⟨c.«to», c.distance, c.time⟩])))
            c.«to» (some (l2 ++ [⟨c.«from», c.distance, c.time⟩]))) rest

/-- Lines 33–54 of the source: initialise `adjacencyList[pointId] = []`
for every point id, then insert every connection in both directions. -/
def buildAdjacencyList (g : Graph) : Except Fault (String → Option (List Adj)) :=
  addConnections (setAll (pointIds g) (some []) (fun _ => none)) g.connections

/-- The mutable state of the Dijkstra loop of the source. -/
structure DState where
  distances : String → JSNum
  times : String → JSNum
  previous : String → JSPrev
  visited : List String

/-- The `Object.keys(graph.points).forEach` scan selecting the unvisited
point with minimum known distance, carrying the running
`(current, shortestDistance)` pair. -/
def selectMinGo (dist : String → JSNum) (visited : List String) :
    List String → Option String × JSNum → Option String × JSNum
  | [], acc => acc
  | pid :: rest, (cur, sd) =>
    if !(visited.contains pid) && jsLt (dist pid) sd then
      selectMinGo dist visited rest (some pid, dist pid)
    else
      selectMinGo dist visited rest (cur, sd)

/-- The selection scan started from `current = null`,
`shortestDistance = Infinity`. -/
def selectMin (ks : List String) (visited : List String) (dist : String → JSNum) :
    Option String :=
  (selectMinGo dist visited ks (none, .inf)).1

/-- The body of the successful relaxation branch of the source: write the
improved distance (`distances[current] + neighbor.distance`), the
accompanying time, and the predecessor of `neighbor.id`. -/
def relaxUpd (current : String) (nb : Adj) (st : DState) : DState :=
  { st with
    distances := upd st.distances nb.id (jsAdd (st.distances current) (.num nb.distance)),
    times := upd st.times nb.id (jsAdd (st.times current) (.num nb.time)),
    previous := upd st.previous nb.id (.str current) }

/-- The `adjacencyList[current].forEach(neighbor => ...)` relaxation loop:
skip visited neighbours, otherwise relax distance/time/predecessor when a
strictly shorter distance through `current` is found (the source's local
`const distance` / `const time` are inlined at their two use sites). -/
def relaxNeighbors (current : String) : List Adj → DState → DState
  | [], st => st
  | nb :: rest, st =>
    if st.visited.contains nb.id then relaxNeighbors current rest st
    else
      if jsLt (jsAdd (st.distances current) (.num nb.distance)) (st.distances nb.id) then
        relaxNeighbors current rest (relaxUpd current nb st)
      else relaxNeighbors current rest st

/-- The `while (visited.size < Object.keys(graph.points).length)` loop of
the source.  The loop adds exactly one point to `visited` per iteration
and is entered with `visited` empty, so `(pointIds g).length` iterations
are exactly enough fuel: the fuel can run out only simultaneously with
the `while` condition turning false, which is the source's own exit. -/
def dijkstraLoop (g : Graph) (adj : String → Option (List Adj)) (endId : String) :
    Nat → DState → DState
  | 0, st => st
  | fuel + 1, st =>
    if st.visited.length < (pointIds g).length then
      match selectMin (pointIds g) st.visited st.distances with
      | none => st
      | some current =>
        if current = endId then st
        else
          let st1 : DState := { st with visited := st.visited ++ [current] }
          let st2 := relaxNeighbors current ((adj current).getD []) st1
          dijkstraLoop g adj endId fuel st2
    else st

/-- The `while (current !== null)` predecessor walk reconstructing the
path (`path.unshift(current)` builds the list front-first, hence the
accumulator).  Walking onto an `undefined` predecessor makes the source
loop forever (`undefined !== null`, and no point key is ever reached
again), reported as `Fault.divergence`; the fuel
`(pointIds g).length + 2` strictly exceeds the longest possible acyclic
predecessor chain, so exhausting it means the chain has a cycle, which in
the source is also an infinite loop and is likewise `Fault.divergence`. -/
def reconstructPath (previous : String → JSPrev) :
    Nat → JSPrev → List String → Except Fault (List String)
  | 0, _, _ => .error .divergence
  | _ + 1, .null, acc => .ok acc
  | fuel + 1, .str s, acc => reconstructPath previous fuel (previous s) (s :: acc)
  | _ + 1, .undefv, _ => .error .divergence

/-- `findShortestPath` of the source (lines 28–123): build the adjacency
list, initialise every point's distance/time to `Infinity` and
predecessor to `null`, set the start to distance `0`, run the selection
loop, and — unless the end's distance is still `Infinity`, in which case
`null` is returned — reconstruct the path by walking predecessors. -/
def findShortestPath (g : Graph) (startId endId : String) :
    Except Fault (Option Route) :=
  match buildAdjacencyList g with
  | .error f => .error f
  | .ok adjacencyList =>
    let ks := pointIds g
    let distances := upd (setAll ks JSNum.inf (fun _ => .undefv)) startId (.num 0)
    let times := upd (setAll ks JSNum.inf (fun _ => .undefv)) startId (.num 0)
    let previous := setAll ks JSPrev.null (fun _ => .undefv)
    let st := dijkstraLoop g adjacencyList endId ks.length
      ⟨distances, times, previous, []⟩
    if st.distances endId = JSNum.inf then .ok none
    else
      match reconstructPath st.previous (ks.length + 2) (.str endId) [] with
      | .error f => .error f
      | .ok path =>
        .ok (some { path := path,
                    totalDistance := (st.distances endId).toQ,
                    totalTime := (st.times endId).toQ })

/-- The `for (const destination of remainingDestinations)` scan of the
source looking for the nearest (smallest `totalDistance`) reachable
remaining destination, carrying the running
`(nearestDestination, shortestRoute)` pair. -/
def findNearest (g : Graph) (pos : String) :
    List String → Option (String × Route) → Except Fault (Option (String × Route))
  | [], acc => .ok acc
  | destination :: rest, acc =>
    match findShortestPath g pos destination with
    | .error f => .error f
    | .ok none => findNearest g pos rest acc
    | .ok (some route) =>
      match acc with
      | none => findNearest g pos rest (some (destination, route))
      | some (nd, best) =>
        if route.totalDistance < best.totalDistance then
          findNearest g pos rest (some (destination, route))
        else findNearest g pos rest (some (nd, best))

/-- The `while (remainingDestinations.length > 0)` greedy loop of the
source: find the nearest remaining destination, append its path (minus
the duplicated current position), accumulate the totals, and filter every
copy of the chosen destination out of the remaining list.  Each pass
removes at least one element from `remaining`, so fuel equal to the
initial number of destinations always outlasts the loop. -/
def greedyLoop (g : Graph) : Nat → String → List String → Route → Except Fault Route
  | 0, _, _, total => .ok total
  | fuel + 1, pos, remaining, total =>
    if remaining.length > 0 then
      match findNearest g pos remaining none with
      | .error f => .error f
      | .ok none => .ok total
      | .ok (some (nearest, route)) =>
        greedyLoop g fuel nearest (remaining.filter (fun d => d != nearest))
          { path := total.path ++ route.path.drop 1,
            totalDistance := total.totalDistance + route.totalDistance,
            totalTime := total.totalTime + route.totalTime }
    else .ok total

/-- `findOptimalRoute` of the source (lines 126–176): `null` on an empty
destination list, delegation to `findShortestPath` for a single
destination, otherwise the greedy nearest-neighbour loop started from
`{ path: [startId], totalDistance: 0, totalTime: 0 }`. -/
def findOptimalRoute (g : Graph) (startId : String) (destinations : List String) :
    Except Fault (Option Route) :=
  match destinations with
  | [] => .ok none
  | [d] => findShortestPath g startId d
  | _ =>
    match greedyLoop g destinations.length startId destinations
        { path := [startId], totalDistance := 0, totalTime := 0 } with
    | .error f => .error f
    | .ok r => .ok (some r)

/-- `sampleGraph` of the source. -/
def sampleGraph : Graph where
  points :=
    [ ("A", { id := "A", name := "Car Park", lat := 40.712776, lng := -74.005974 }),
      ("B", { id := "B", name := "Point B", lat := 40.714541, lng := -74.007089 }),
      ("C", { id := "C", name := "Point C", lat := 40.718617, lng := -74.013392 }),
      ("D", { id := "D", name := "Point D", lat := 40.715120, lng := -74.015610 }),
      ("E", { id := "E", name := "Point E", lat := 40.711614, lng := -74.012262 }),
      ("V", { id := "V", name := "Point V", lat := 40.709749, lng := -74.006168 }),
      ("Y", { id := "Y", name := "Point Y", lat := 40.713051, lng := -74.013735 }) ]
  connections :=
    [ ⟨"A", "B", 0.5, 3⟩,
      ⟨"A", "E", 0.7, 5⟩,
      ⟨"A", "V", 0.4, 2⟩,
      ⟨"B", "C", 0.8, 6⟩,
      ⟨"B", "Y", 1.1, 8⟩,
      ⟨"C", "D", 0.6, 4⟩,
      ⟨"C", "Y", 0.9, 7⟩,
      ⟨"D", "E", 1.2, 10⟩,
      ⟨"E", "V", 0.6, 4⟩,
      ⟨"E", "Y", 0.5, 3⟩,
      ⟨"V", "Y", 0.9, 7⟩ ]

/-- The data-model invariant of the spec's §3 on a `Graph`: record keys
are distinct and every connection references existing point ids. -/
def WellFormed (g : Graph) : Prop :=
  (pointIds g).Nodup ∧ ∀ c ∈ g.connections, c.«from» ∈ pointIds g ∧ c.«to» ∈ pointIds g

/-- The data-model requirement that connection distances are
non-negative. -/
def NonnegDistances (g : Graph) : Prop :=
  ∀ c ∈ g.connections, 0 ≤ c.distance

instance (g : Graph) : Decidable (WellFormed g) := by
  unfold WellFormed; infer_instance

instance (g : Graph) : Decidable (NonnegDistances g) := by
  unfold NonnegDistances; infer_instance

/-- Some connection of `g` joins `u` and `v` (in either stored direction)
with distance `w` and time `t`. -/
def IsStep (g : Graph) (u v : String) (w t : ℚ) : Prop :=
  ∃ c ∈ g.connections,
    ((c.«from» = u ∧ c.«to» = v) ∨ (c.«from» = v ∧ c.«to» = u)) ∧
    c.distance = w ∧ c.time = t

/-- `ListPathCost g p c ct`: the point-id sequence `p` is a walk in `g`
(each consecutive pair joined by some connection, used in either
direction) whose chosen connection distances sum to `c` and whose chosen
connection times sum to `ct`. -/
inductive ListPathCost (g : Graph) : List String → ℚ → ℚ → Prop
  | single (a : String) : ListPathCost g [a] 0 0
  | cons {u v : String} {w t c ct : ℚ} {p : List String} :
      IsStep g u v w t → ListPathCost g (v :: p) c ct →
      ListPathCost g (u :: v :: p) (w + c) (t + ct)

/-- The adjacency record has an entry exactly for the point keys. -/
def AdjDom (g : Graph) (m : String → Option (List Adj)) : Prop :=
  ∀ x, (m x).isSome ↔ x ∈ pointIds g

/-- Every adjacency entry comes from some connection of `g`. -/
def AdjSound (g : Graph) (m : String → Option (List Adj)) : Prop :=
  ∀ u l, m u = some l → ∀ e ∈ l, IsStep g u e.id e.distance e.time

/-- The invariant maintained by the selection/relaxation loop of
`findShortestPath` (for a start id that is a point key). -/
structure DInv (g : Graph) (m : String → Option (List Adj))
    (startId endId : String) (st : DState) : Prop where
  vis_sub : ∀ u ∈ st.visited, u ∈ pointIds g
  vis_nodup : st.visited.Nodup
  end_not_vis : endId ∉ st.visited
  vis_finite : ∀ u ∈ st.visited, ∃ q, st.distances u = .num q
  start_vis : st.visited = [] ∨ startId ∈ st.visited
  dist_start : st.distances startId = .num 0
  times_start : st.times startId = .num 0
  prev_start : st.previous startId = .null
  outside : ∀ x, x ∉ pointIds g → st.distances x = .undefv ∧ st.previous x = .undefv
  keys_nund : ∀ x ∈ pointIds g, st.distances x ≠ .undefv ∧ st.previous x ≠ .undefv
  nonneg : ∀ x q, st.distances x = .num q → 0 ≤ q
  times_sync : ∀ x q, st.distances x = .num q → ∃ t, st.times x = .num t
  prev_ex : ∀ x q, x ≠ startId → st.distances x = .num q → ∃ u, st.previous x = .str u
  prev_sound : ∀ v u, st.previous v = .str u →
    u ∈ st.visited ∧
    ∃ l, m u = some l ∧ ∃ e ∈ l, e.id = v ∧
      ∃ du tu, st.distances u = .num du ∧ st.times u = .num tu ∧
        st.distances v = .num (du + e.distance) ∧ st.times v = .num (tu + e.time) ∧
        (v ∈ st.visited → st.visited.indexOf u < st.visited.indexOf v)
  cut : ∀ u ∈ st.visited, ∀ x, x ∉ st.visited → ∀ q, st.distances x = .num q →
    ∃ du, st.distances u = .num du ∧ du ≤ q
  relaxed : ∀ u ∈ st.visited, ∀ l, m u = some l → ∀ e ∈ l,
    ∃ du, st.distances u = .num du ∧
      ∃ q, st.distances e.id = .num q ∧ q ≤ du + e.distance

/-- The initial search state of `findShortestPath`: every point key has
distance and time `Infinity` and predecessor `null`, then the start is
set to distance and time `0`; nothing is visited. -/
def initState (g : Graph) (startId : String) : DState :=
  ⟨upd (setAll (pointIds g) JSNum.inf (fun _ => .undefv)) startId (.num 0),
   upd (setAll (pointIds g) JSNum.inf (fun _ => .undefv)) startId (.num 0),
   setAll (pointIds g) JSPrev.null (fun _ => .undefv), []⟩

/-- No two connections join the same unordered pair of point ids with a
different distance or time (the "no parallel connections" hypothesis
under which the chosen connection per step is determined by its
endpoints). -/
def NoParallel (g : Graph) : Prop :=
  ∀ c1 ∈ g.connections, ∀ c2 ∈ g.connections,
    ((c1.«from» = c2.«from» ∧ c1.«to» = c2.«to») ∨
     (c1.«from» = c2.«to» ∧ c1.«to» = c2.«from»)) →
    c1.distance = c2.distance ∧ c1.time = c2.time

instance (g : Graph) : Decidable (NoParallel g) := by
  unfold NoParallel; infer_instance

deriving instance DecidableEq for Except

/-- Two points with no connections at all. -/
def isolatedPair : Graph where
  points :=
    [ ("A", { id := "A", name := "Alpha", lat := 0, lng := 0 }),
      ("B", { id := "B", name := "Beta", lat := 1, lng := 1 }) ]
  connections := []

/-- Three points with no connections at all. -/
def isolatedTriple : Graph where
  points :=
    [ ("A", { id := "A", name := "Alpha", lat := 0, lng := 0 }),
      ("H", { id := "H", name := "Hotel", lat := 1, lng := 0 }),
      ("K", { id := "K", name := "Kilo", lat := 0, lng := 1 }) ]
  connections := []

/-- A graph whose single connection names a point id (`Z`) that is not a
key of `points`. -/
def danglingGraph : Graph where
  points := [ ("A", { id := "A", name := "Alpha", lat := 0, lng := 0 }) ]
  connections := [ ⟨"A", "Z", 1, 1⟩ ]

/-! ## Basic lemmas about the record model and JavaScript comparisons -/

@[simp] theorem upd_self {α : Type} (f : String → α) (k : String) (v : α) :
    upd f k v k = v := by simp [upd]

theorem upd_ne {α : Type} (f : String → α) {k x : String} (v : α) (h : x ≠ k) :
    upd f k v x = f x := by simp [upd, h]

theorem setAll_eq_of_not_mem {α : Type} {ks : List String} {x : String}
    (v : α) (f : String → α) (h : x ∉ ks) : setAll ks v f x = f x := by
  induction ks generalizing f with
  | nil => rfl
  | cons k rest ih =>
    have h1 : x ≠ k := fun hx => h (hx ▸ List.mem_cons_self k rest)
    have h2 : x ∉ rest := fun hx => h (List.mem_cons_of_mem _ hx)
    show setAll rest v (upd f k v) x = f x
    rw [ih (upd f k v) h2, upd_ne f v h1]

theorem setAll_eq_of_mem {α : Type} {ks : List String} {x : String}
    (v : α) (f : String → α) (h : x ∈ ks) : setAll ks v f x = v := by
  induction ks generalizing f with
  | nil => simp at h
  | cons k rest ih =>
    show setAll rest v (upd f k v) x = v
    by_cases hx : x ∈ rest
    · exact ih (upd f k v) hx
    · have hxk : x = k := by rcases List.mem_cons.1 h with h' | h' <;> simp_all
      rw [setAll_eq_of_not_mem v _ hx]
      simp [hxk]

theorem jsLt_irrefl (a : JSNum) : jsLt a a = false := by
  cases a <;> simp [jsLt]

theorem jsLt_asymm {a b : JSNum} (h : jsLt a b = true) : jsLt b a = false := by
  cases a <;> cases b <;> simp_all [jsLt] <;> linarith

theorem jsLt_trans {a b c : JSNum} (h1 : jsLt a b = true) (h2 : jsLt b c = true) :
    jsLt a c = true := by
  cases a <;> cases b <;> cases c <;> simp_all [jsLt] <;> linarith

theorem jsLt_num_true {a : JSNum} {b : JSNum} (h : jsLt a b = true) :
    ∃ q, a = .num q := by
  cases a <;> simp_all [jsLt]

theorem jsLt_inf_of_num (q : ℚ) : jsLt (.num q) .inf = true := rfl

theorem not_jsLt_num {a : ℚ} {b : JSNum} (h : jsLt b (.num a) = false)
    (hb : b ≠ .undefv) : b = .inf ∨ ∃ q, b = .num q ∧ a ≤ q := by
  cases b with
  | num q => right; exact ⟨q, rfl, by simpa [jsLt] using h⟩
  | inf => left; rfl
  | undefv => exact absurd rfl hb

theorem contains_iff_mem (l : List String) (a : String) :
    l.contains a = true ↔ a ∈ l := List.elem_iff

theorem contains_false_iff (l : List String) (a : String) :
    l.contains a = false ↔ a ∉ l := by
  rw [← Bool.not_eq_true, not_iff_not]; exact contains_iff_mem l a

/-! ## Adjacency-list lemmas -/

theorem adjDom_init (g : Graph) :
    AdjDom g (setAll (pointIds g) (some []) (fun _ => none)) := by
  intro x
  by_cases hx : x ∈ pointIds g
  · rw [setAll_eq_of_mem _ _ hx]; simp [hx]
  · rw [setAll_eq_of_not_mem _ _ hx]; simp [hx]

theorem adjSound_init (g : Graph) :
    AdjSound g (setAll (pointIds g) (some []) (fun _ => none)) := by
  intro u l hl e he
  by_cases hu : u ∈ pointIds g
  · rw [setAll_eq_of_mem _ _ hu] at hl
    cases hl; simp at he
  · rw [setAll_eq_of_not_mem _ _ hu] at hl; cases hl


theorem adjDom_upd {g : Graph} {m : String → Option (List Adj)} {k : String} {l : List Adj}
    (hd : AdjDom g m) (hk : m k = some l) (l' : List Adj) :
    AdjDom g (upd m k (some l')) := by
  intro x
  by_cases hx : x = k
  · subst hx; rw [upd_self]
    simpa using (hd x).1 (by rw [hk]; rfl)
  · rw [upd_ne _ _ hx]; exact hd x

theorem addConnections_dom {g : Graph} {m m' : String → Option (List Adj)}
    {conns : List Connection} (hd : AdjDom g m)
    (h : addConnections m conns = .ok m') : AdjDom g m' := by
  induction conns generalizing m with
  | nil => cases h; exact hd
  | cons c rest ih =>
    unfold addConnections at h
    split at h
    · cases h
    · rename_i l hf
      split at h
      · cases h
      · rename_i l2 ht
        exact ih (adjDom_upd (adjDom_upd hd hf _) ht _) h

theorem addConnections_sound {g : Graph} {m m' : String → Option (List Adj)}
    {conns : List Connection} (hs : AdjSound g m)
    (hsub : ∀ c ∈ conns, c ∈ g.connections)
    (h : addConnections m conns = .ok m') : AdjSound g m' := by
  induction conns generalizing m with
  | nil => cases h; exact hs
  | cons c rest ih =>
    unfold addConnections at h
    split at h
    · cases h
    · rename_i l hf
      split at h
      · cases h
      · rename_i l2 ht
        have hc : c ∈ g.connections := hsub c (List.mem_cons_self _ _)
        refine ih ?_ (fun c' hc' => hsub c' (List.mem_cons_of_mem _ hc')) h
        have hs1 : AdjSound g (upd m c.«from» (some (l ++ [⟨c.«to», c.distance, c.time⟩]))) := by
          intro u l' hl' e he
          by_cases hu : u = c.«from»
          · subst hu; rw [upd_self] at hl'
            cases hl'
            rcases List.mem_append.1 he with h1 | h1
            · exact hs _ l hf e h1
            · simp only [List.mem_singleton] at h1; subst h1
              exact ⟨c, hc, Or.inl ⟨rfl, rfl⟩, rfl, rfl⟩
          · rw [upd_ne _ _ hu] at hl'; exact hs u l' hl' e he
        intro u l' hl' e he
        by_cases hu : u = c.«to»
        · subst hu; rw [upd_self] at hl'
          cases hl'
          rcases List.mem_append.1 he with h1 | h1
          · exact hs1 _ l2 ht e h1
          · simp only [List.mem_singleton] at h1; subst h1
            exact ⟨c, hc, Or.inr ⟨rfl, rfl⟩, rfl, rfl⟩
        · rw [upd_ne _ _ hu] at hl'; exact hs1 u l' hl' e he

theorem addConnections_ok {g : Graph} {m : String → Option (List Adj)}
    {conns : List Connection} (hd : AdjDom g m)
    (hwf : ∀ c ∈ conns, c.«from» ∈ pointIds g ∧ c.«to» ∈ pointIds g) :
    ∃ m', addConnections m conns = .ok m' ∧ AdjDom g m' := by
  induction conns generalizing m with
  | nil => exact ⟨m, rfl, hd⟩
  | cons c rest ih =>
    have hcf := (hwf c (List.mem_cons_self _ _)).1
    have hct := (hwf c (List.mem_cons_self _ _)).2
    cases hf : m c.«from» with
    | none => exact absurd ((hd _).2 hcf) (by rw [hf]; simp)
    | some l =>
      cases ht : upd m c.«from» (some (l ++ [⟨c.«to», c.distance, c.time⟩])) c.«to» with
      | none => exact absurd ((adjDom_upd hd hf _ _).2 hct) (by rw [ht]; simp)
      | some l2 =>
        obtain ⟨m', hm', hdm'⟩ :=
          ih (adjDom_upd (adjDom_upd hd hf _) ht _)
            (fun c' hc' => hwf c' (List.mem_cons_of_mem _ hc'))
        refine ⟨m', ?_, hdm'⟩
        simp only [addConnections, hf, ht]
        exact hm'

theorem addConnections_err {g : Graph} {m : String → Option (List Adj)}
    {conns : List Connection} (hd : AdjDom g m)
    (hbad : ∃ c ∈ conns, c.«from» ∉ pointIds g ∨ c.«to» ∉ pointIds g) :
    addConnections m conns = .error .typeError := by
  induction conns generalizing m with
  | nil => simp at hbad
  | cons c rest ih =>
    obtain ⟨cb, hc', hbad'⟩ := hbad
    rcases List.mem_cons.1 hc' with rfl | hmem
    · rcases hbad' with hb | hb
      · have hnone : m cb.«from» = none := by
          cases hm : m cb.«from» with
          | none => rfl
          | some l => exact absurd ((hd _).1 (by rw [hm]; rfl)) hb
        simp only [addConnections, hnone]
      · cases hf : m cb.«from» with
        | none => simp only [addConnections, hf]
        | some l =>
          have hnone : upd m cb.«from» (some (l ++ [⟨cb.«to», cb.distance, cb.time⟩]))
              cb.«to» = none := by
            cases hm : upd m cb.«from» (some (l ++ [⟨cb.«to», cb.distance, cb.time⟩])) cb.«to» with
            | none => rfl
            | some l2 => exact absurd (((adjDom_upd hd hf _) _).1 (by rw [hm]; rfl)) hb
          simp only [addConnections, hf, hnone]
    · cases hf : m c.«from» with
      | none => simp only [addConnections, hf]
      | some l =>
        cases ht : upd m c.«from» (some (l ++ [⟨c.«to», c.distance, c.time⟩])) c.«to» with
        | none => simp only [addConnections, hf, ht]
        | some l2 =>
          simp only [addConnections, hf, ht]
          exact ih (adjDom_upd (adjDom_upd hd hf _) ht _) ⟨cb, hmem, hbad'⟩

/-- On a well-formed graph the adjacency derivation succeeds, its record
covers exactly the point keys, and every entry reflects a connection. -/
theorem buildAdjacencyList_ok {g : Graph} (hwf : WellFormed g) :
    ∃ m, buildAdjacencyList g = .ok m ∧ AdjDom g m ∧ AdjSound g m := by
  obtain ⟨m, hm, hd⟩ := addConnections_ok (adjDom_init g) hwf.2
  exact ⟨m, hm, hd, addConnections_sound (adjSound_init g) (fun c hc => hc) hm⟩

/-- A connection referencing a missing point id makes the adjacency
derivation throw. -/
theorem buildAdjacencyList_err {g : Graph}
    (hbad : ∃ c ∈ g.connections, c.«from» ∉ pointIds g ∨ c.«to» ∉ pointIds g) :
    buildAdjacencyList g = .error .typeError :=
  addConnections_err (adjDom_init g) hbad

/-! ## Minimum-selection lemmas -/

theorem selectMinGo_spec (dist : String → JSNum) (visited : List String)
    (ks : List String) : ∀ (cur : Option String) (sd : JSNum),
    (∀ p ∈ ks, visited.contains p = false →
      jsLt (dist p) (selectMinGo dist visited ks (cur, sd)).2 = false) ∧
    (((selectMinGo dist visited ks (cur, sd)).1 = cur ∧
      (selectMinGo dist visited ks (cur, sd)).2 = sd) ∨
     (∃ c q, (selectMinGo dist visited ks (cur, sd)).1 = some c ∧
       (selectMinGo dist visited ks (cur, sd)).2 = dist c ∧ c ∈ ks ∧
       visited.contains c = false ∧ dist c = .num q)) ∧
    ((selectMinGo dist visited ks (cur, sd)).2 = sd ∨
      jsLt (selectMinGo dist visited ks (cur, sd)).2 sd = true) := by
  induction ks with
  | nil =>
    intro cur sd
    exact ⟨by simp, Or.inl ⟨rfl, rfl⟩, Or.inl rfl⟩
  | cons pid rest ih =>
    intro cur sd
    by_cases hcond : (!(visited.contains pid) && jsLt (dist pid) sd) = true
    · obtain ⟨h1, hlt⟩ : (!(visited.contains pid)) = true ∧ jsLt (dist pid) sd = true := by
        simpa using hcond
      have hv : visited.contains pid = false := by simpa using h1
      have hred : selectMinGo dist visited (pid :: rest) (cur, sd) =
          selectMinGo dist visited rest (some pid, dist pid) := by
        simp only [selectMinGo]
        rw [if_pos hcond]
      obtain ⟨hA, hB, hC⟩ := ih (some pid) (dist pid)
      rw [hred]
      refine ⟨?_, ?_, ?_⟩
      · intro p hp hvp
        rcases List.mem_cons.1 hp with rfl | hp'
        · rcases hC with h1 | h1
          · rw [h1]; exact jsLt_irrefl _
          · exact jsLt_asymm h1
        · exact hA p hp' hvp
      · rcases hB with ⟨h1, h2⟩ | ⟨c, q, h1, h2, h3, h4, h5⟩
        · obtain ⟨q, hq⟩ := jsLt_num_true hlt
          exact Or.inr ⟨pid, q, h1, h2, List.mem_cons_self _ _, hv, hq⟩
        · exact Or.inr ⟨c, q, h1, h2, List.mem_cons_of_mem _ h3, h4, h5⟩
      · rcases hC with h1 | h1
        · exact Or.inr (by rw [h1]; exact hlt)
        · exact Or.inr (jsLt_trans h1 hlt)
    · have hred : selectMinGo dist visited (pid :: rest) (cur, sd) =
          selectMinGo dist visited rest (cur, sd) := by
        simp only [selectMinGo]
        rw [if_neg hcond]
      obtain ⟨hA, hB, hC⟩ := ih cur sd
      rw [hred]
      refine ⟨?_, ?_, ?_⟩
      · intro p hp hvp
        rcases List.mem_cons.1 hp with rfl | hp'
        · have hlt : jsLt (dist p) sd = false := by
            cases hb : jsLt (dist p) sd with
            | false => rfl
            | true => exact absurd (by rw [hvp, hb]; rfl) hcond
          rcases hC with h1 | h1
          · rw [h1]; exact hlt
          · cases hb : jsLt (dist p) (selectMinGo dist visited rest (cur, sd)).2 with
            | false => rfl
            | true => rw [jsLt_trans hb h1] at hlt; cases hlt
        · exact hA p hp' hvp
      · rcases hB with h1 | ⟨c, q, h1, h2, h3, h4, h5⟩
        · exact Or.inl h1
        · exact Or.inr ⟨c, q, h1, h2, List.mem_cons_of_mem _ h3, h4, h5⟩
      · exact hC

theorem selectMin_some {ks visited : List String} {dist : String → JSNum} {c : String}
    (h : selectMin ks visited dist = some c) :
    c ∈ ks ∧ visited.contains c = false ∧ (∃ q, dist c = .num q) ∧
    ∀ p ∈ ks, visited.contains p = false → jsLt (dist p) (dist c) = false := by
  obtain ⟨hA, hB, hC⟩ := selectMinGo_spec dist visited ks none .inf
  unfold selectMin at h
  rcases hB with ⟨h1, _⟩ | ⟨c', q, h1, h2, h3, h4, h5⟩
  · rw [h] at h1; cases h1
  · rw [h] at h1
    cases h1
    exact ⟨h3, h4, ⟨q, h5⟩, fun p hp hv => by rw [← h2]; exact hA p hp hv⟩

theorem selectMin_none {ks visited : List String} {dist : String → JSNum}
    (h : selectMin ks visited dist = none) :
    ∀ p ∈ ks, visited.contains p = false → ∀ q, dist p ≠ .num q := by
  obtain ⟨hA, hB, _⟩ := selectMinGo_spec dist visited ks none .inf
  rcases hB with ⟨_, h2⟩ | ⟨c', q, h1, _, _, _, _⟩
  · intro p hp hv q hq
    have := hA p hp hv
    rw [h2, hq] at this
    simp [jsLt] at this
  · unfold selectMin at h; rw [h1] at h; cases h

theorem selectMin_eq_none {ks visited : List String} {dist : String → JSNum}
    (h : ∀ p ∈ ks, visited.contains p = false → ∀ q, dist p ≠ .num q) :
    selectMin ks visited dist = none := by
  cases hc : selectMin ks visited dist with
  | none => rfl
  | some c =>
    obtain ⟨h1, h2, ⟨q, h3⟩, _⟩ := selectMin_some hc
    exact absurd h3 (h c h1 h2 q)

/-! ## Relaxation-loop lemmas -/

theorem jsLt_num_false {a : ℚ} {X : JSNum} (h : jsLt (.num a) X = false)
    (hX : X ≠ .undefv) : ∃ b, X = .num b ∧ b ≤ a := by
  cases X with
  | num b => exact ⟨b, rfl, by simpa [jsLt, not_lt] using h⟩
  | inf => simp [jsLt] at h
  | undefv => exact absurd rfl hX

theorem jsLt_num_right {X : JSNum} {b : ℚ} (h : jsLt X (.num b) = true) :
    ∃ a, X = .num a ∧ a < b := by
  cases X with
  | num a => exact ⟨a, rfl, by simpa [jsLt] using h⟩
  | inf => simp [jsLt] at h
  | undefv => simp [jsLt] at h

theorem DState_distances (d t : String → JSNum) (p : String → JSPrev) (v : List String) :
    (DState.mk d t p v).distances = d := rfl

theorem DState_times (d t : String → JSNum) (p : String → JSPrev) (v : List String) :
    (DState.mk d t p v).times = t := rfl

theorem DState_previous (d t : String → JSNum) (p : String → JSPrev) (v : List String) :
    (DState.mk d t p v).previous = p := rfl

theorem DState_visited (d t : String → JSNum) (p : String → JSPrev) (v : List String) :
    (DState.mk d t p v).visited = v := rfl

theorem relaxUpd_distances (current : String) (nb : Adj) (st : DState) :
    (relaxUpd current nb st).distances =
      upd st.distances nb.id (jsAdd (st.distances current) (.num nb.distance)) := rfl

theorem relaxUpd_times (current : String) (nb : Adj) (st : DState) :
    (relaxUpd current nb st).times =
      upd st.times nb.id (jsAdd (st.times current) (.num nb.time)) := rfl

theorem relaxUpd_previous (current : String) (nb : Adj) (st : DState) :
    (relaxUpd current nb st).previous = upd st.previous nb.id (.str current) := rfl

theorem relaxUpd_visited (current : String) (nb : Adj) (st : DState) :
    (relaxUpd current nb st).visited = st.visited := rfl

theorem relax_visited (current : String) (l : List Adj) (st : DState) :
    (relaxNeighbors current l st).visited = st.visited := by
  induction l generalizing st with
  | nil => rfl
  | cons nb rest ih =>
    unfold relaxNeighbors
    split
    · exact ih st
    · split
      · rw [ih (relaxUpd current nb st), relaxUpd_visited]
      · exact ih st

theorem relax_untouched (current : String) {l : List Adj} {st : DState} {x : String}
    (hx : ∀ e ∈ l, e.id ≠ x) :
    (relaxNeighbors current l st).distances x = st.distances x ∧
    (relaxNeighbors current l st).times x = st.times x ∧
    (relaxNeighbors current l st).previous x = st.previous x := by
  induction l generalizing st with
  | nil => exact ⟨rfl, rfl, rfl⟩
  | cons nb rest ih =>
    have hnb : nb.id ≠ x := hx nb (List.mem_cons_self _ _)
    have hrest : ∀ e ∈ rest, e.id ≠ x := fun e he => hx e (List.mem_cons_of_mem _ he)
    have hne : x ≠ nb.id := fun h => hnb h.symm
    unfold relaxNeighbors
    split
    · exact ih hrest
    · split
      · obtain ⟨h1, h2, h3⟩ := @ih (relaxUpd current nb st) hrest
        rw [h1, h2, h3, relaxUpd_distances, relaxUpd_times, relaxUpd_previous]
        exact ⟨upd_ne _ _ hne, upd_ne _ _ hne, upd_ne _ _ hne⟩
      · exact ih hrest

theorem relax_frozen (current : String) {l : List Adj} {st : DState} {x : String}
    (hx : st.visited.contains x = true) :
    (relaxNeighbors current l st).distances x = st.distances x ∧
    (relaxNeighbors current l st).times x = st.times x ∧
    (relaxNeighbors current l st).previous x = st.previous x := by
  induction l generalizing st with
  | nil => exact ⟨rfl, rfl, rfl⟩
  | cons nb rest ih =>
    unfold relaxNeighbors
    split
    · exact ih hx
    · rename_i hnb
      split
      · have hne : x ≠ nb.id := by
          intro h; rw [h] at hx; rw [hx] at hnb; exact hnb rfl
        obtain ⟨h1, h2, h3⟩ := @ih (relaxUpd current nb st) hx
        rw [h1, h2, h3, relaxUpd_distances, relaxUpd_times, relaxUpd_previous]
        exact ⟨upd_ne _ _ hne, upd_ne _ _ hne, upd_ne _ _ hne⟩
      · exact ih hx

theorem relax_decreasing (current : String) (l : List Adj) (st : DState) (x : String) :
    (relaxNeighbors current l st).distances x = st.distances x ∨
    jsLt ((relaxNeighbors current l st).distances x) (st.distances x) = true := by
  induction l generalizing st with
  | nil => exact Or.inl rfl
  | cons nb rest ih =>
    unfold relaxNeighbors
    split
    · exact ih st
    · split
      · rename_i hlt
        rcases ih (relaxUpd current nb st) with h1 | h1 <;>
          rw [relaxUpd_distances] at h1
        · rw [h1]
          by_cases hxe : x = nb.id
          · subst hxe; rw [upd_self]; exact Or.inr hlt
          · rw [upd_ne _ _ hxe]; exact Or.inl rfl
        · by_cases hxe : x = nb.id
          · subst hxe
            rw [upd_self] at h1
            exact Or.inr (jsLt_trans h1 hlt)
          · rw [upd_ne _ _ hxe] at h1; exact Or.inr h1
      · exact ih st

theorem relax_shape (current : String) {l : List Adj} {st : DState} {dc tc : ℚ}
    (hcur : st.visited.contains current = true)
    (hdc : st.distances current = .num dc) (htc : st.times current = .num tc)
    (x : String) :
    ((relaxNeighbors current l st).distances x = st.distances x ∧
     (relaxNeighbors current l st).times x = st.times x ∧
     (relaxNeighbors current l st).previous x = st.previous x) ∨
    (∃ e ∈ l, e.id = x ∧ st.visited.contains x = false ∧
      jsLt (.num (dc + e.distance)) (st.distances x) = true ∧
      (relaxNeighbors current l st).distances x = .num (dc + e.distance) ∧
      (relaxNeighbors current l st).times x = .num (tc + e.time) ∧
      (relaxNeighbors current l st).previous x = .str current) := by
  induction l generalizing st with
  | nil => exact Or.inl ⟨rfl, rfl, rfl⟩
  | cons nb rest ih =>
    by_cases hv : st.visited.contains nb.id = true
    · have hred : relaxNeighbors current (nb :: rest) st = relaxNeighbors current rest st := by
        conv_lhs => unfold relaxNeighbors
        rw [if_pos hv]
      rw [hred]
      rcases ih hcur hdc htc with h | ⟨e, he, h⟩
      · exact Or.inl h
      · exact Or.inr ⟨e, List.mem_cons_of_mem _ he, h⟩
    · have hnbf : st.visited.contains nb.id = false := by
        cases hb : st.visited.contains nb.id with
        | false => rfl
        | true => exact absurd hb hv
      have hnecur : current ≠ nb.id := fun h => hv (h ▸ hcur)
      by_cases hlt : jsLt (jsAdd (st.distances current) (.num nb.distance))
          (st.distances nb.id) = true
      · have hred : relaxNeighbors current (nb :: rest) st =
            relaxNeighbors current rest (relaxUpd current nb st) := by
          conv_lhs => unfold relaxNeighbors
          rw [if_neg hv, if_pos hlt]
        rw [hred]
        have hcur' : (relaxUpd current nb st).visited.contains current = true := hcur
        have hdc' : (relaxUpd current nb st).distances current = .num dc := by
          rw [relaxUpd_distances, upd_ne _ _ hnecur]; exact hdc
        have htc' : (relaxUpd current nb st).times current = .num tc := by
          rw [relaxUpd_times, upd_ne _ _ hnecur]; exact htc
        have hguard : jsLt (.num (dc + nb.distance)) (st.distances nb.id) = true := by
          have : jsAdd (st.distances current) (.num nb.distance) = .num (dc + nb.distance) := by
            rw [hdc]; rfl
          rw [this] at hlt; exact hlt
        rcases ih hcur' hdc' htc' with ⟨h1, h2, h3⟩ | ⟨e, he, h1, h2, h3, h4, h5, h6⟩
        · by_cases hx : x = nb.id
          · subst hx
            refine Or.inr ⟨nb, List.mem_cons_self _ _, rfl, hnbf, hguard, ?_, ?_, ?_⟩
            · rw [h1, relaxUpd_distances, upd_self, hdc]; rfl
            · rw [h2, relaxUpd_times, upd_self, htc]; rfl
            · rw [h3, relaxUpd_previous, upd_self]
          · refine Or.inl ⟨?_, ?_, ?_⟩
            · rw [h1, relaxUpd_distances, upd_ne _ _ hx]
            · rw [h2, relaxUpd_times, upd_ne _ _ hx]
            · rw [h3, relaxUpd_previous, upd_ne _ _ hx]
        · -- an entry of `rest` updated `x`; its guard transfers to the pre-state
          have hvx : st.visited.contains x = false := h2
          by_cases hx : x = nb.id
          · subst hx
            have hst' : (relaxUpd current nb st).distances nb.id = .num (dc + nb.distance) := by
              rw [relaxUpd_distances, upd_self, hdc]; rfl
            rw [hst'] at h3
            exact Or.inr ⟨e, List.mem_cons_of_mem _ he, h1, hvx,
              jsLt_trans h3 hguard, h4, h5, h6⟩
          · have hst' : (relaxUpd current nb st).distances x = st.distances x := by
              rw [relaxUpd_distances, upd_ne _ _ hx]
            rw [hst'] at h3
            exact Or.inr ⟨e, List.mem_cons_of_mem _ he, h1, hvx, h3, h4, h5, h6⟩
      · have hred : relaxNeighbors current (nb :: rest) st = relaxNeighbors current rest st := by
          conv_lhs => unfold relaxNeighbors
          rw [if_neg hv, if_neg hlt]
        rw [hred]
        rcases ih hcur hdc htc with h | ⟨e, he, h⟩
        · exact Or.inl h
        · exact Or.inr ⟨e, List.mem_cons_of_mem _ he, h⟩

theorem relax_bound (current : String) {l : List Adj} {st : DState} {dc : ℚ}
    (hcur : st.visited.contains current = true)
    (hdc : st.distances current = .num dc)
    (hnund : ∀ e ∈ l, st.distances e.id ≠ .undefv) :
    ∀ e ∈ l, st.visited.contains e.id = false →
      ∃ q, (relaxNeighbors current l st).distances e.id = .num q ∧
        q ≤ dc + e.distance := by
  induction l generalizing st with
  | nil => intro e he; simp at he
  | cons nb rest ih =>
    by_cases hv : st.visited.contains nb.id = true
    · have hred : relaxNeighbors current (nb :: rest) st = relaxNeighbors current rest st := by
        conv_lhs => unfold relaxNeighbors
        rw [if_pos hv]
      rw [hred]
      intro e he hef
      rcases List.mem_cons.1 he with rfl | he'
      · rw [hef] at hv; exact absurd hv (by simp)
      · exact ih hcur hdc (fun e' he'' => hnund e' (List.mem_cons_of_mem _ he'')) e he' hef
    · have hne : current ≠ nb.id := fun h => hv (h ▸ hcur)
      by_cases hlt : jsLt (jsAdd (st.distances current) (.num nb.distance))
          (st.distances nb.id) = true
      · have hred : relaxNeighbors current (nb :: rest) st =
            relaxNeighbors current rest (relaxUpd current nb st) := by
          conv_lhs => unfold relaxNeighbors
          rw [if_neg hv, if_pos hlt]
        rw [hred]
        have hcur' : (relaxUpd current nb st).visited.contains current = true := hcur
        have hdc' : (relaxUpd current nb st).distances current = .num dc := by
          rw [relaxUpd_distances, upd_ne _ _ hne]; exact hdc
        have hnund' : ∀ e' ∈ rest, (relaxUpd current nb st).distances e'.id ≠ .undefv := by
          intro e' he''
          rw [relaxUpd_distances]
          by_cases hx : e'.id = nb.id
          · rw [hx, upd_self, hdc]; simp [jsAdd]
          · rw [upd_ne _ _ hx]; exact hnund e' (List.mem_cons_of_mem _ he'')
        intro e he hef
        rcases List.mem_cons.1 he with rfl | he'
        · have hupd : (relaxUpd current e st).distances e.id = .num (dc + e.distance) := by
            rw [relaxUpd_distances, upd_self, hdc]; rfl
          rcases relax_decreasing current rest (relaxUpd current e st) e.id with h1 | h1
          · exact ⟨dc + e.distance, by rw [h1, hupd], le_refl _⟩
          · rw [hupd] at h1
            obtain ⟨q, hq1, hq2⟩ := jsLt_num_right h1
            exact ⟨q, hq1, le_of_lt hq2⟩
        · exact ih hcur' hdc' hnund' e he' hef
      · have hred : relaxNeighbors current (nb :: rest) st = relaxNeighbors current rest st := by
          conv_lhs => unfold relaxNeighbors
          rw [if_neg hv, if_neg hlt]
        rw [hred]
        intro e he hef
        rcases List.mem_cons.1 he with rfl | he'
        · have heq : jsAdd (st.distances current) (.num e.distance) = .num (dc + e.distance) := by
            rw [hdc]; rfl
          rw [heq] at hlt
          have hltf : jsLt (.num (dc + e.distance)) (st.distances e.id) = false := by
            cases hb : jsLt (.num (dc + e.distance)) (st.distances e.id) with
            | false => rfl
            | true => exact absurd hb hlt
          obtain ⟨b, hb1, hb2⟩ := jsLt_num_false hltf (hnund e (List.mem_cons_self _ _))
          rcases relax_decreasing current rest st e.id with h1 | h1
          · exact ⟨b, by rw [h1, hb1], hb2⟩
          · rw [hb1] at h1
            obtain ⟨q, hq1, hq2⟩ := jsLt_num_right h1
            exact ⟨q, hq1, le_of_lt (lt_of_lt_of_le hq2 hb2)⟩
        · exact ih hcur hdc (fun e' he'' => hnund e' (List.mem_cons_of_mem _ he'')) e he' hef

/-! ## The Dijkstra loop invariant -/

theorem indexOf_append_self {l : List String} {a : String} (h : a ∉ l) :
    (l ++ [a]).indexOf a = l.length := by
  induction l with
  | nil => simp
  | cons b rest ih =>
    have hab : b ≠ a := fun hh => h (hh ▸ List.mem_cons_self b rest)
    simp only [List.cons_append, List.indexOf_cons, List.length_cons]
    rw [show (b == a) = false from beq_eq_false_iff_ne.2 hab, cond_false,
      ih (fun hx => h (List.mem_cons_of_mem _ hx))]

theorem adj_entry_mem {g : Graph} {m : String → Option (List Adj)}
    (hwf : WellFormed g) (hs : AdjSound g m) {u : String} {l : List Adj}
    (hl : m u = some l) {e : Adj} (he : e ∈ l) : e.id ∈ pointIds g := by
  obtain ⟨c, hc, hdir, _, _⟩ := hs u l hl e he
  rcases hdir with ⟨_, h2⟩ | ⟨h1, _⟩
  · exact h2 ▸ (hwf.2 c hc).2
  · exact h1 ▸ (hwf.2 c hc).1

theorem adj_entry_nonneg {g : Graph} {m : String → Option (List Adj)}
    (hnn : NonnegDistances g) (hs : AdjSound g m) {u : String} {l : List Adj}
    (hl : m u = some l) {e : Adj} (he : e ∈ l) : 0 ≤ e.distance := by
  obtain ⟨c, hc, _, hd, _⟩ := hs u l hl e he
  exact hd ▸ hnn c hc

/-- The state just before the loop satisfies the invariant. -/
theorem dinv_init (g : Graph) (m : String → Option (List Adj))
    (startId endId : String) (hstart : startId ∈ pointIds g) :
    DInv g m startId endId
      ⟨upd (setAll (pointIds g) JSNum.inf (fun _ => .undefv)) startId (.num 0),
       upd (setAll (pointIds g) JSNum.inf (fun _ => .undefv)) startId (.num 0),
       setAll (pointIds g) JSPrev.null (fun _ => .undefv), []⟩ := by
  have hdist : ∀ x, upd (setAll (pointIds g) JSNum.inf (fun _ => JSNum.undefv)) startId
      (JSNum.num 0) x = if x = startId then JSNum.num 0
        else if x ∈ pointIds g then JSNum.inf else JSNum.undefv := by
    intro x
    by_cases hxs : x = startId
    · subst hxs; rw [upd_self, if_pos rfl]
    · rw [upd_ne _ _ hxs, if_neg hxs]
      by_cases hx : x ∈ pointIds g
      · rw [setAll_eq_of_mem _ _ hx, if_pos hx]
      · rw [setAll_eq_of_not_mem _ _ hx, if_neg hx]
  have hprev : ∀ x, setAll (pointIds g) JSPrev.null (fun _ => JSPrev.undefv) x =
      if x ∈ pointIds g then JSPrev.null else JSPrev.undefv := by
    intro x
    by_cases hx : x ∈ pointIds g
    · rw [setAll_eq_of_mem _ _ hx, if_pos hx]
    · rw [setAll_eq_of_not_mem _ _ hx, if_neg hx]
  constructor
  case vis_sub => intro u hu; simp at hu
  case vis_nodup => simp
  case end_not_vis => simp
  case vis_finite => intro u hu; simp at hu
  case start_vis => exact Or.inl rfl
  case dist_start => show upd _ startId (JSNum.num 0) startId = _; rw [upd_self]
  case times_start => show upd _ startId (JSNum.num 0) startId = _; rw [upd_self]
  case prev_start =>
    show setAll _ _ _ startId = _
    rw [hprev, if_pos hstart]
  case outside =>
    intro x hx
    have hxs : x ≠ startId := fun h => hx (h ▸ hstart)
    constructor
    · show upd _ startId (JSNum.num 0) x = _
      rw [hdist, if_neg hxs, if_neg hx]
    · show setAll _ _ _ x = _
      rw [hprev, if_neg hx]
  case keys_nund =>
    intro x hx
    constructor
    · show upd _ startId (JSNum.num 0) x ≠ _
      rw [hdist]
      by_cases hxs : x = startId
      · rw [if_pos hxs]; simp
      · rw [if_neg hxs, if_pos hx]; simp
    · show setAll _ _ _ x ≠ _
      rw [hprev, if_pos hx]; simp
  case nonneg =>
    intro x q hq
    simp only [hdist] at hq
    split at hq
    · cases hq; exact le_refl 0
    · split at hq <;> cases hq
  case times_sync =>
    intro x q hq
    simp only [hdist] at hq
    split at hq
    · rename_i hxs
      subst hxs
      exact ⟨0, by show upd _ x (JSNum.num 0) x = _; rw [upd_self]⟩
    · split at hq <;> cases hq
  case prev_ex =>
    intro x q hxs hq
    simp only [hdist] at hq
    rw [if_neg hxs] at hq
    split at hq <;> cases hq
  case prev_sound =>
    intro v u hvu
    exfalso
    simp only [hprev] at hvu
    split at hvu <;> cases hvu
  case cut => intro u hu; simp at hu
  case relaxed => intro u hu; simp at hu

/-- One full pass of the loop body (select `current`, mark it visited,
relax its neighbours) preserves the invariant. -/
theorem dinv_step {g : Graph} {m : String → Option (List Adj)}
    {startId endId current : String} {st : DState}
    (hwf : WellFormed g) (hnn : NonnegDistances g) (hstart : startId ∈ pointIds g)
    (hd : AdjDom g m) (hs : AdjSound g m)
    (inv : DInv g m startId endId st)
    (hsel : selectMin (pointIds g) st.visited st.distances = some current)
    (hne : current ≠ endId) :
    DInv g m startId endId
      (relaxNeighbors current ((m current).getD [])
        { st with visited := st.visited ++ [current] }) := by
  obtain ⟨hcmem, hcunvis, hdcex, hmin⟩ := selectMin_some hsel
  obtain ⟨dc, hdc⟩ := hdcex
  have hcnotmem : current ∉ st.visited := (contains_false_iff _ _).1 hcunvis
  obtain ⟨l, hml⟩ : ∃ l, m current = some l := by
    cases hm : m current with
    | none => exact absurd ((hd current).2 hcmem) (by rw [hm]; simp)
    | some l => exact ⟨l, rfl⟩
  have hgetd : (m current).getD [] = l := by rw [hml]; rfl
  rw [hgetd]
  obtain ⟨tc, htc⟩ := inv.times_sync current dc hdc
  have hcur1 : ({ st with visited := st.visited ++ [current] } : DState).visited.contains
      current = true := by
    rw [DState_visited]
    exact (contains_iff_mem _ _).2 (List.mem_append.2 (Or.inr (List.mem_singleton.2 rfl)))
  have hdc1 : ({ st with visited := st.visited ++ [current] } : DState).distances current
      = .num dc := hdc
  have htc1 : ({ st with visited := st.visited ++ [current] } : DState).times current
      = .num tc := htc
  have hids : ∀ e ∈ l, e.id ∈ pointIds g := fun e he => adj_entry_mem hwf hs hml he
  have hnonneg_e : ∀ e ∈ l, 0 ≤ e.distance := fun e he => adj_entry_nonneg hnn hs hml he
  have hnund1 : ∀ e ∈ l,
      ({ st with visited := st.visited ++ [current] } : DState).distances e.id ≠ .undefv :=
    fun e he => (inv.keys_nund _ (hids e he)).1
  have hvis2 : (relaxNeighbors current l
        { st with visited := st.visited ++ [current] }).visited
      = st.visited ++ [current] := by
    rw [relax_visited, DState_visited]
  have hfroz : ∀ x, x ∈ st.visited ∨ x = current →
      (relaxNeighbors current l { st with visited := st.visited ++ [current] }).distances x
          = st.distances x ∧
      (relaxNeighbors current l { st with visited := st.visited ++ [current] }).times x
          = st.times x ∧
      (relaxNeighbors current l { st with visited := st.visited ++ [current] }).previous x
          = st.previous x := by
    intro x hx
    have hcx : ({ st with visited := st.visited ++ [current] } : DState).visited.contains x
        = true := by
      rw [DState_visited]
      refine (contains_iff_mem _ _).2 (List.mem_append.2 ?_)
      rcases hx with h | h
      · exact Or.inl h
      · exact Or.inr (List.mem_singleton.2 h)
    exact relax_frozen current hcx
  have hshape : ∀ x,
      ((relaxNeighbors current l { st with visited := st.visited ++ [current] }).distances x
          = st.distances x ∧
       (relaxNeighbors current l { st with visited := st.visited ++ [current] }).times x
          = st.times x ∧
       (relaxNeighbors current l { st with visited := st.visited ++ [current] }).previous x
          = st.previous x) ∨
      (∃ e ∈ l, e.id = x ∧ (st.visited ++ [current]).contains x = false ∧
        jsLt (.num (dc + e.distance)) (st.distances x) = true ∧
        (relaxNeighbors current l { st with visited := st.visited ++ [current] }).distances x
          = .num (dc + e.distance) ∧
        (relaxNeighbors current l { st with visited := st.visited ++ [current] }).times x
          = .num (tc + e.time) ∧
        (relaxNeighbors current l { st with visited := st.visited ++ [current] }).previous x
          = .str current) :=
    fun x => relax_shape current hcur1 hdc1 htc1 x
  have hdc2 : (relaxNeighbors current l
      { st with visited := st.visited ++ [current] }).distances current = .num dc := by
    rw [(hfroz current (Or.inr rfl)).1]; exact hdc
  have htc2 : (relaxNeighbors current l
      { st with visited := st.visited ++ [current] }).times current = .num tc := by
    rw [(hfroz current (Or.inr rfl)).2.1]; exact htc
  have hstart_untouched :
      (relaxNeighbors current l { st with visited := st.visited ++ [current] }).distances
          startId = st.distances startId ∧
      (relaxNeighbors current l { st with visited := st.visited ++ [current] }).times
          startId = st.times startId ∧
      (relaxNeighbors current l { st with visited := st.visited ++ [current] }).previous
          startId = st.previous startId := by
    rcases hshape startId with h | ⟨e, he, hid, hcf, hg, _⟩
    · exact h
    · exfalso
      rw [inv.dist_start] at hg
      have hlt0 : dc + e.distance < 0 := by simpa [jsLt] using hg
      have h0 : 0 ≤ dc := inv.nonneg current dc hdc
      have h1 : 0 ≤ e.distance := hnonneg_e e he
      linarith
  constructor
  case vis_sub =>
    intro u hu
    rw [hvis2] at hu
    rcases List.mem_append.1 hu with h | h
    · exact inv.vis_sub u h
    · exact (List.mem_singleton.1 h) ▸ hcmem
  case vis_nodup =>
    rw [hvis2]
    exact List.Nodup.append inv.vis_nodup (List.nodup_singleton _)
      (fun a ha hb => hcnotmem ((List.mem_singleton.1 hb) ▸ ha))
  case end_not_vis =>
    rw [hvis2]
    intro hmem
    rcases List.mem_append.1 hmem with h | h
    · exact inv.end_not_vis h
    · exact hne (List.mem_singleton.1 h).symm
  case vis_finite =>
    intro u hu
    rw [hvis2] at hu
    rcases List.mem_append.1 hu with h | h
    · obtain ⟨q, hq⟩ := inv.vis_finite u h
      exact ⟨q, by rw [(hfroz u (Or.inl h)).1]; exact hq⟩
    · exact ⟨dc, by rw [List.mem_singleton.1 h]; exact hdc2⟩
  case start_vis =>
    right
    rw [hvis2]
    rcases inv.start_vis with hVnil | hmemV
    · have hcs : current = startId := by
        by_contra hne'
        obtain ⟨u, hpu⟩ := inv.prev_ex current dc hne' hdc
        have hmem := (inv.prev_sound current u hpu).1
        rw [hVnil] at hmem
        simp at hmem
      exact List.mem_append.2 (Or.inr (List.mem_singleton.2 hcs.symm))
    · exact List.mem_append.2 (Or.inl hmemV)
  case dist_start => rw [hstart_untouched.1]; exact inv.dist_start
  case times_start => rw [hstart_untouched.2.1]; exact inv.times_start
  case prev_start => rw [hstart_untouched.2.2]; exact inv.prev_start
  case outside =>
    intro x hx
    rcases hshape x with ⟨h1, _, h3⟩ | ⟨e, he, hid, _⟩
    · exact ⟨by rw [h1]; exact (inv.outside x hx).1, by rw [h3]; exact (inv.outside x hx).2⟩
    · exact absurd (hid ▸ hids e he) hx
  case keys_nund =>
    intro x hx
    rcases hshape x with ⟨h1, _, h3⟩ | ⟨e, he, hid, _, _, h4, _, h6⟩
    · exact ⟨by rw [h1]; exact (inv.keys_nund x hx).1,
        by rw [h3]; exact (inv.keys_nund x hx).2⟩
    · exact ⟨by rw [h4]; simp, by rw [h6]; simp⟩
  case nonneg =>
    intro x q hq
    rcases hshape x with ⟨h1, _, _⟩ | ⟨e, he, _, _, _, h4, _, _⟩
    · rw [h1] at hq; exact inv.nonneg x q hq
    · rw [h4] at hq
      cases hq
      have h0 : 0 ≤ dc := inv.nonneg current dc hdc
      have h1 := hnonneg_e e he
      linarith
  case times_sync =>
    intro x q hq
    rcases hshape x with ⟨h1, h2, _⟩ | ⟨e, he, _, _, _, _, h5, _⟩
    · rw [h1] at hq
      obtain ⟨t, ht⟩ := inv.times_sync x q hq
      exact ⟨t, by rw [h2]; exact ht⟩
    · exact ⟨tc + e.time, h5⟩
  case prev_ex =>
    intro x q hxs hq
    rcases hshape x with ⟨h1, _, h3⟩ | ⟨e, he, _, _, _, _, _, h6⟩
    · rw [h1] at hq
      obtain ⟨u, hu⟩ := inv.prev_ex x q hxs hq
      exact ⟨u, by rw [h3]; exact hu⟩
    · exact ⟨current, h6⟩
  case prev_sound =>
    intro v u hvu
    rcases hshape v with ⟨h1, h2, h3⟩ | ⟨e, he, hid, hcf, _, h4, h5, h6⟩
    · rw [h3] at hvu
      obtain ⟨huv, l0, hml0, e, hel0, hide, du, tu, hdu, htu, hdv, htv, hidx⟩ :=
        inv.prev_sound v u hvu
      refine ⟨?_, l0, hml0, e, hel0, hide, du, tu, ?_, ?_, ?_, ?_, ?_⟩
      · rw [hvis2]; exact List.mem_append.2 (Or.inl huv)
      · rw [(hfroz u (Or.inl huv)).1]; exact hdu
      · rw [(hfroz u (Or.inl huv)).2.1]; exact htu
      · rw [h1]; exact hdv
      · rw [h2]; exact htv
      · intro hv2
        rw [hvis2] at hv2 ⊢
        rcases List.mem_append.1 hv2 with hvV | hvc
        · rw [List.indexOf_append_of_mem huv, List.indexOf_append_of_mem hvV]
          exact hidx hvV
        · rw [List.mem_singleton.1 hvc,
            List.indexOf_append_of_mem huv, indexOf_append_self hcnotmem]
          exact List.indexOf_lt_length.2 huv
    · have hu : u = current := by rw [h6] at hvu; cases hvu; rfl
      subst hu
      refine ⟨?_, l, hml, e, he, hid, dc, tc, hdc2, htc2, ?_, ?_, ?_⟩
      · rw [hvis2]; exact List.mem_append.2 (Or.inr (List.mem_singleton.2 rfl))
      · exact h4
      · exact h5
      · intro hv2
        rw [hvis2] at hv2
        exact absurd hv2 ((contains_false_iff _ _).1 hcf)
  case cut =>
    intro u hu x hx q hq
    rw [hvis2] at hu hx
    have hxnv : x ∉ st.visited := fun h => hx (List.mem_append.2 (Or.inl h))
    have hxnc : x ≠ current :=
      fun h => hx (List.mem_append.2 (Or.inr (List.mem_singleton.2 h)))
    have humem : u ∈ st.visited ∨ u = current := by
      rcases List.mem_append.1 hu with h | h
      · exact Or.inl h
      · exact Or.inr (List.mem_singleton.1 h)
    have hufr := hfroz u humem
    rcases hshape x with ⟨h1, _, _⟩ | ⟨e, he, hid, hcf, _, h4, _, _⟩
    · rw [h1] at hq
      rcases humem with huV | huc
      · obtain ⟨du, hdu, hduq⟩ := inv.cut u huV x hxnv q hq
        exact ⟨du, by rw [hufr.1]; exact hdu, hduq⟩
      · have hcu : current = u := huc.symm
        subst hcu
        have hxK : x ∈ pointIds g := by
          by_contra hxK
          rw [(inv.outside x hxK).1] at hq; cases hq
        have hm := hmin x hxK ((contains_false_iff _ _).2 hxnv)
        rw [hq, hdc] at hm
        have hdcq : dc ≤ q := by simpa [jsLt, not_lt] using hm
        exact ⟨dc, by rw [hufr.1]; exact hdc, hdcq⟩
    · rw [h4] at hq
      cases hq
      rcases humem with huV | huc
      · obtain ⟨du, hdu, hduq⟩ := inv.cut u huV current hcnotmem dc hdc
        refine ⟨du, by rw [hufr.1]; exact hdu, ?_⟩
        have := hnonneg_e e he
        linarith
      · have hcu : current = u := huc.symm
        subst hcu
        refine ⟨dc, by rw [hufr.1]; exact hdc, ?_⟩
        have := hnonneg_e e he
        linarith
  case relaxed =>
    intro u hu l' hml' e' hel'
    rw [hvis2] at hu
    rcases List.mem_append.1 hu with huV | huc
    · obtain ⟨du, hdu, q0, hq0, hq0le⟩ := inv.relaxed u huV l' hml' e' hel'
      have hufr := hfroz u (Or.inl huV)
      refine ⟨du, by rw [hufr.1]; exact hdu, ?_⟩
      rcases relax_decreasing current l { st with visited := st.visited ++ [current] }
          e'.id with h1 | h1
      · refine ⟨q0, ?_, hq0le⟩
        rw [h1]; exact hq0
      · have h1' : jsLt ((relaxNeighbors current l
            { st with visited := st.visited ++ [current] }).distances e'.id)
            (st.distances e'.id) = true := h1
        rw [hq0] at h1'
        obtain ⟨q', hq', hlt'⟩ := jsLt_num_right h1'
        exact ⟨q', hq', le_of_lt (lt_of_lt_of_le hlt' hq0le)⟩
    · have huc' : current = u := (List.mem_singleton.1 huc).symm
      subst huc'
      rw [hml] at hml'
      cases hml'
      refine ⟨dc, hdc2, ?_⟩
      by_cases hev : e'.id ∈ st.visited ∨ e'.id = current
      · have hf := hfroz e'.id hev
        rcases hev with hevV | hevc
        · obtain ⟨de, hde, hdele⟩ := inv.cut e'.id hevV current hcnotmem dc hdc
          refine ⟨de, by rw [hf.1]; exact hde, ?_⟩
          have := hnonneg_e e' hel'
          linarith
        · refine ⟨dc, ?_, ?_⟩
          · rw [hf.1, hevc]; exact hdc
          · have := hnonneg_e e' hel'
            linarith
      · push_neg at hev
        have hcf : ({ st with visited := st.visited ++ [current] } : DState).visited.contains
            e'.id = false := by
          rw [DState_visited]
          refine (contains_false_iff _ _).2 ?_
          intro hmem
          rcases List.mem_append.1 hmem with h | h
          · exact hev.1 h
          · exact hev.2 (List.mem_singleton.1 h)
        exact relax_bound current hcur1 hdc1 hnund1 e' hel' hcf

/-- Running the loop from a state satisfying the invariant ends in a state
that still satisfies it, and the loop can only have stopped because the
selection found no reachable unvisited point or selected `endId` (the
fuel, equal to the number of points minus the visited count, cannot run
out first: the invariant keeps `endId` outside `visited`). -/
theorem dinv_loop {g : Graph} {m : String → Option (List Adj)}
    {startId endId : String} (fuel : Nat) {st : DState}
    (hwf : WellFormed g) (hnn : NonnegDistances g)
    (hstart : startId ∈ pointIds g) (hend : endId ∈ pointIds g)
    (hd : AdjDom g m) (hs : AdjSound g m)
    (inv : DInv g m startId endId st)
    (hfuel : st.visited.length + fuel = (pointIds g).length) :
    DInv g m startId endId (dijkstraLoop g m endId fuel st) ∧
    (selectMin (pointIds g) (dijkstraLoop g m endId fuel st).visited
        (dijkstraLoop g m endId fuel st).distances = none ∨
     selectMin (pointIds g) (dijkstraLoop g m endId fuel st).visited
        (dijkstraLoop g m endId fuel st).distances = some endId) := by
  induction fuel generalizing st with
  | zero =>
    exfalso
    have hsub : (endId :: st.visited) ⊆ pointIds g := by
      intro a ha
      rcases List.mem_cons.1 ha with rfl | ha'
      · exact hend
      · exact inv.vis_sub a ha'
    have hnd : (endId :: st.visited).Nodup :=
      List.nodup_cons.2 ⟨inv.end_not_vis, inv.vis_nodup⟩
    have hlen := (List.Nodup.subperm hnd hsub).length_le
    simp only [List.length_cons] at hlen
    omega
  | succ fuel ih =>
    have hcond : st.visited.length < (pointIds g).length := by omega
    cases hsel : selectMin (pointIds g) st.visited st.distances with
    | none =>
      have hunf : dijkstraLoop g m endId (fuel + 1) st = st := by
        conv_lhs => unfold dijkstraLoop
        rw [if_pos hcond, hsel]
      rw [hunf]
      exact ⟨inv, Or.inl hsel⟩
    | some current =>
      by_cases hce : current = endId
      · have hunf : dijkstraLoop g m endId (fuel + 1) st = st := by
          conv_lhs => unfold dijkstraLoop
          rw [if_pos hcond, hsel]
          show (if current = endId then st else _) = st
          rw [if_pos hce]
        rw [hunf]
        exact ⟨inv, Or.inr (hce ▸ hsel)⟩
      · have hunf : dijkstraLoop g m endId (fuel + 1) st =
            dijkstraLoop g m endId fuel
              (relaxNeighbors current ((m current).getD [])
                { st with visited := st.visited ++ [current] }) := by
          conv_lhs => unfold dijkstraLoop
          rw [if_pos hcond, hsel]
          show (if current = endId then st else _) = _
          rw [if_neg hce]
        rw [hunf]
        have inv' := dinv_step hwf hnn hstart hd hs inv hsel hce
        have hlen : (relaxNeighbors current ((m current).getD [])
              { st with visited := st.visited ++ [current] }).visited.length + fuel
            = (pointIds g).length := by
          rw [relax_visited, DState_visited, List.length_append]
          simp only [List.length_singleton]
          omega
        exact ih inv' hlen

/-! ## Walks and their costs -/

theorem IsStep.symm {g : Graph} {u v : String} {w t : ℚ} (h : IsStep g u v w t) :
    IsStep g v u w t := by
  obtain ⟨c, hc, hdir, hw, ht⟩ := h
  exact ⟨c, hc, hdir.symm, hw, ht⟩

theorem IsStep.mem_left {g : Graph} {u v : String} {w t : ℚ}
    (hwf : WellFormed g) (h : IsStep g u v w t) : u ∈ pointIds g := by
  obtain ⟨c, hc, hdir, _, _⟩ := h
  rcases hdir with ⟨h1, _⟩ | ⟨_, h2⟩
  · exact h1 ▸ (hwf.2 c hc).1
  · exact h2 ▸ (hwf.2 c hc).2

theorem IsStep.nonneg_w {g : Graph} {u v : String} {w t : ℚ}
    (hnn : NonnegDistances g) (h : IsStep g u v w t) : 0 ≤ w := by
  obtain ⟨c, hc, _, hw, _⟩ := h
  exact hw ▸ hnn c hc

theorem ListPathCost.ne_nil {g : Graph} {p : List String} {c ct : ℚ}
    (h : ListPathCost g p c ct) : p ≠ [] := by
  cases h <;> simp

theorem ListPathCost.nonneg {g : Graph} {p : List String} {c ct : ℚ}
    (hnn : NonnegDistances g) (h : ListPathCost g p c ct) : 0 ≤ c := by
  induction h with
  | single a => exact le_refl 0
  | cons hstep htail ih => exact add_nonneg (hstep.nonneg_w hnn) ih

theorem ListPathCost.head_mem {g : Graph} {a : String} {p : List String} {c ct : ℚ}
    (hwf : WellFormed g) (ha : a ∈ pointIds g) (h : ListPathCost g (a :: p) c ct) :
    ∀ x ∈ a :: p, x ∈ pointIds g := by
  induction p generalizing a c ct with
  | nil => intro x hx; rcases List.mem_cons.1 hx with rfl | hx' <;> simp_all
  | cons b rest ih =>
    cases h with
    | cons hstep htail =>
      have hb : b ∈ pointIds g := (hstep.symm).mem_left hwf
      intro x hx
      rcases List.mem_cons.1 hx with rfl | hx'
      · exact ha
      · exact ih hb htail x hx'

theorem ListPathCost.snoc {g : Graph} {p : List String} {c ct : ℚ} {u v : String}
    {w t : ℚ} (h : ListPathCost g p c ct) (hu : p.getLast? = some u)
    (hstep : IsStep g u v w t) : ListPathCost g (p ++ [v]) (c + w) (ct + t) := by
  induction h with
  | single a =>
    have : a = u := by simpa using hu
    subst this
    have h0 : (0 : ℚ) + w = w + 0 := by ring
    have h0t : (0 : ℚ) + t = t + 0 := by ring
    rw [h0, h0t]
    exact ListPathCost.cons hstep (ListPathCost.single v)
  | cons hstep' htail ih =>
    rename_i a b w' t' c' ct' p'
    rw [List.getLast?_cons_cons] at hu
    have h2 := ListPathCost.cons hstep' (ih hu)
    have ha : w' + (c' + w) = w' + c' + w := by ring
    have hb : t' + (ct' + t) = t' + ct' + t := by ring
    rw [ha, hb] at h2
    exact h2

theorem ListPathCost.reverse {g : Graph} {p : List String} {c ct : ℚ}
    (h : ListPathCost g p c ct) : ListPathCost g p.reverse c ct := by
  induction h with
  | single a => simpa using ListPathCost.single a
  | cons hstep htail ih =>
    rename_i u v w t c' ct' p'
    rw [List.reverse_cons]
    have hlast : (v :: p').reverse.getLast? = some v := by
      rw [List.getLast?_reverse]; rfl
    have h2 := ih.snoc hlast hstep.symm
    have ha : c' + w = w + c' := by ring
    have hb : ct' + t = t + ct' := by ring
    rw [ha, hb] at h2
    exact h2

/-- Extra fuel never changes a successful reconstruction. -/
theorem reconstructPath_mono {previous : String → JSPrev} {f f' : Nat} {cur : JSPrev}
    {acc r : List String} (h : reconstructPath previous f cur acc = .ok r)
    (hf : f ≤ f') : reconstructPath previous f' cur acc = .ok r := by
  induction f generalizing f' cur acc with
  | zero => cases h
  | succ f ihf =>
    cases f' with
    | zero => omega
    | succ f' =>
      cases cur with
      | null => exact h
      | str s =>
        have h' : reconstructPath previous f (previous s) (s :: acc) = .ok r := h
        show reconstructPath previous f' (previous s) (s :: acc) = .ok r
        exact ihf h' (by omega)
      | undefv => cases h

/-- In an invariant state, walking the predecessor chain from any point
with a finite distance reconstructs a walk from the start whose chosen
connection distances and times sum exactly to the recorded distance and
time.  The bound `k` dominates the visit index of the predecessor, which
strictly decreases along the chain. -/
theorem reconstruct_chain {g : Graph} {m : String → Option (List Adj)}
    {startId endId : String} {st : DState}
    (hs : AdjSound g m) (inv : DInv g m startId endId st) (k : Nat) :
    ∀ (v : String) (dv tv : ℚ) (acc : List String),
      st.distances v = .num dv → st.times v = .num tv →
      (v = startId ∨ ∃ u, st.previous v = .str u ∧ st.visited.indexOf u < k) →
      ∃ p, reconstructPath st.previous (k + 2) (.str v) acc = .ok (p ++ acc) ∧
        p.head? = some startId ∧ p.getLast? = some v ∧ ListPathCost g p dv tv := by
  induction k using Nat.strong_induction_on with
  | _ k ih =>
    intro v dv tv acc hdv htv hcase
    rcases hcase with rfl | ⟨u, hpu, huk⟩
    · have h0 : (0 : ℚ) = dv := by
        have := inv.dist_start.symm.trans hdv
        exact JSNum.num.inj this
      have h0t : (0 : ℚ) = tv := by
        have := inv.times_start.symm.trans htv
        exact JSNum.num.inj this
      refine ⟨[v], ?_, rfl, rfl, h0 ▸ h0t ▸ ListPathCost.single v⟩
      have e1 : reconstructPath st.previous (k + 2) (.str v) acc =
          reconstructPath st.previous (k + 1) (st.previous v) (v :: acc) := rfl
      rw [e1, inv.prev_start]
      rfl
    · obtain ⟨huvis, l, hml, e, hel, hide, du, tu, hdu, htu, hdv', htv', hidx⟩ :=
        inv.prev_sound v u hpu
      have hdveq : dv = du + e.distance := JSNum.num.inj (hdv.symm.trans hdv')
      have htveq : tv = tu + e.time := JSNum.num.inj (htv.symm.trans htv')
      have hucase : u = startId ∨ ∃ u', st.previous u = .str u' ∧
          st.visited.indexOf u' < st.visited.indexOf u := by
        by_cases hus : u = startId
        · exact Or.inl hus
        · obtain ⟨u', hpu'⟩ := inv.prev_ex u du hus hdu
          obtain ⟨_, _, _, _, _, _, _, _, _, _, _, _, hidx'⟩ := inv.prev_sound u u' hpu'
          exact Or.inr ⟨u', hpu', hidx' huvis⟩
      obtain ⟨p, hp, hph, hpl, hpc⟩ :=
        ih (st.visited.indexOf u) huk u du tu (v :: acc) hdu htu hucase
      have hp' : reconstructPath st.previous (k + 1) (.str u) (v :: acc)
          = .ok (p ++ v :: acc) :=
        reconstructPath_mono hp (by omega)
      have hstep1 : reconstructPath st.previous (k + 2) (.str v) acc =
          reconstructPath st.previous (k + 1) (st.previous v) (v :: acc) := rfl
      obtain ⟨a0, p0, rfl⟩ : ∃ a0 p0, p = a0 :: p0 := by
        cases p with
        | nil => cases hph
        | cons a0 p0 => exact ⟨a0, p0, rfl⟩
      refine ⟨(a0 :: p0) ++ [v], ?_, ?_, List.getLast?_concat _, ?_⟩
      · rw [hstep1, hpu, hp', List.append_assoc]
        rfl
      · simpa using hph
      · have hstep : IsStep g u v e.distance e.time := hide ▸ hs u l hml e hel
        have := hpc.snoc hpl hstep
        rw [hdveq, htveq]
        exact this

theorem upd_eq_of {α : Type} (f : String → α) {k x : String} (v : α) (h : x = k) :
    upd f k v x = v := by rw [h]; exact upd_self f k v

theorem addConnections_mono {m m' : String → Option (List Adj)}
    {conns : List Connection} (h : addConnections m conns = .ok m')
    {u : String} {l : List Adj} (hl : m u = some l) :
    ∃ l', m' u = some l' ∧ ∀ e ∈ l, e ∈ l' := by
  induction conns generalizing m l with
  | nil => cases h; exact ⟨l, hl, fun e he => he⟩
  | cons c rest ih =>
    unfold addConnections at h
    split at h
    · cases h
    · rename_i l1 hf
      split at h
      · cases h
      · rename_i l2 ht
        have step : ∃ l3, upd (upd m c.«from» (some (l1 ++ [⟨c.«to», c.distance, c.time⟩])))
            c.«to» (some (l2 ++ [⟨c.«from», c.distance, c.time⟩])) u = some l3 ∧
            ∀ e ∈ l, e ∈ l3 := by
          by_cases hu2 : u = c.«to»
          · refine ⟨l2 ++ [⟨c.«from», c.distance, c.time⟩],
              upd_eq_of _ _ hu2, ?_⟩
            have hsub2 : ∀ e ∈ l, e ∈ l2 := by
              by_cases hu1 : u = c.«from»
              · have hft : c.«to» = c.«from» := hu2.symm.trans hu1
                have hval := upd_eq_of m (some (l1 ++
                  [(⟨c.«to», c.distance, c.time⟩ : Adj)])) hft
                rw [hval] at ht
                have hl1 : l1 = l := by
                  have h1 : m u = some l1 := by rw [hu1]; exact hf
                  exact Option.some.inj (h1.symm.trans hl)
                intro e he
                rw [← Option.some.inj ht]
                exact List.mem_append.2 (Or.inl (hl1.symm ▸ he))
              · have hne1 : c.«to» ≠ c.«from» := fun hh => hu1 (hu2.trans hh)
                rw [upd_ne _ _ hne1, ← hu2, hl] at ht
                intro e he
                rw [← Option.some.inj ht]
                exact he
            exact fun e he => List.mem_append.2 (Or.inl (hsub2 e he))
          · by_cases hu1 : u = c.«from»
            · refine ⟨l1 ++ [⟨c.«to», c.distance, c.time⟩], ?_, ?_⟩
              · rw [upd_ne _ _ hu2]
                exact upd_eq_of _ _ hu1
              · have hl1 : l1 = l := by
                  have h1 : m u = some l1 := by rw [hu1]; exact hf
                  exact Option.some.inj (h1.symm.trans hl)
                intro e he
                exact List.mem_append.2 (Or.inl (hl1.symm ▸ he))
            · exact ⟨l, by rw [upd_ne _ _ hu2, upd_ne _ _ hu1]; exact hl,
                fun e he => he⟩
        obtain ⟨l3, hval, hsub⟩ := step
        obtain ⟨l', hl', hsub'⟩ := ih h hval
        exact ⟨l', hl', fun e he => hsub' e (hsub e he)⟩

theorem addConnections_adds {m m' : String → Option (List Adj)}
    {conns : List Connection} (h : addConnections m conns = .ok m')
    {c : Connection} (hc : c ∈ conns) :
    (∃ l, m' c.«from» = some l ∧ (⟨c.«to», c.distance, c.time⟩ : Adj) ∈ l) ∧
    (∃ l, m' c.«to» = some l ∧ (⟨c.«from», c.distance, c.time⟩ : Adj) ∈ l) := by
  induction conns generalizing m with
  | nil => simp at hc
  | cons c' rest ih =>
    unfold addConnections at h
    split at h
    · cases h
    · rename_i l1 hf
      split at h
      · cases h
      · rename_i l2 ht
        rcases List.mem_cons.1 hc with rfl | hmem
        · constructor
          · by_cases hft : c.«from» = c.«to»
            · have hm2 : upd (upd m c.«from» (some (l1 ++ [⟨c.«to», c.distance, c.time⟩])))
                  c.«to» (some (l2 ++ [⟨c.«from», c.distance, c.time⟩])) c.«from»
                  = some (l2 ++ [⟨c.«from», c.distance, c.time⟩]) := upd_eq_of _ _ hft
              have hl2 : some (l1 ++ [(⟨c.«to», c.distance, c.time⟩ : Adj)]) = some l2 := by
                rw [← ht]
                exact (upd_eq_of m (some (l1 ++ [(⟨c.«to», c.distance, c.time⟩ : Adj)]))
                  hft.symm).symm
              have hentry : (⟨c.«to», c.distance, c.time⟩ : Adj)
                  ∈ l2 ++ [⟨c.«from», c.distance, c.time⟩] := by
                rw [← Option.some.inj hl2]
                exact List.mem_append.2 (Or.inl (List.mem_append.2
                  (Or.inr (List.mem_singleton.2 rfl))))
              obtain ⟨l', hl', hsub⟩ := addConnections_mono h hm2
              exact ⟨l', hl', hsub _ hentry⟩
            · have hm2 : upd (upd m c.«from» (some (l1 ++ [⟨c.«to», c.distance, c.time⟩])))
                  c.«to» (some (l2 ++ [⟨c.«from», c.distance, c.time⟩])) c.«from»
                  = some (l1 ++ [⟨c.«to», c.distance, c.time⟩]) := by
                rw [upd_ne _ _ hft, upd_self]
              obtain ⟨l', hl', hsub⟩ := addConnections_mono h hm2
              exact ⟨l', hl', hsub _ (List.mem_append.2
                (Or.inr (List.mem_singleton.2 rfl)))⟩
          · have hm2 : upd (upd m c.«from» (some (l1 ++ [⟨c.«to», c.distance, c.time⟩])))
                c.«to» (some (l2 ++ [⟨c.«from», c.distance, c.time⟩])) c.«to»
                = some (l2 ++ [⟨c.«from», c.distance, c.time⟩]) := upd_self _ _ _
            obtain ⟨l', hl', hsub⟩ := addConnections_mono h hm2
            exact ⟨l', hl', hsub _ (List.mem_append.2
              (Or.inr (List.mem_singleton.2 rfl)))⟩
        · exact ih h hmem

/-- Every connection direction appears in the derived adjacency record. -/
theorem buildAdjacencyList_complete {g : Graph} {m : String → Option (List Adj)}
    (hm : buildAdjacencyList g = .ok m) {u v : String} {w t : ℚ}
    (hstep : IsStep g u v w t) :
    ∃ l, m u = some l ∧ (⟨v, w, t⟩ : Adj) ∈ l := by
  obtain ⟨c, hc, hdir, hw, ht⟩ := hstep
  rcases hdir with ⟨h1, h2⟩ | ⟨h1, h2⟩
  · obtain ⟨⟨l, hl, he⟩, _⟩ := addConnections_adds hm hc
    exact ⟨l, h1 ▸ hl, by rw [← h2, ← hw, ← ht]; exact he⟩
  · obtain ⟨_, ⟨l, hl, he⟩⟩ := addConnections_adds hm hc
    exact ⟨l, h2 ▸ hl, by rw [← h1, ← hw, ← ht]; exact he⟩

/-- Walking any costed walk that starts at a visited point: either every
point of the walk is visited and the recorded distance of its last point
is bounded by the walk's start distance plus its cost, or some point of
the graph is still unvisited with a recorded finite distance within the
same bound.  This is the classical cut argument of Dijkstra's proof,
phrased on the `relaxed` and `cut` components of the invariant. -/
theorem dinv_walk {g : Graph} {m : String → Option (List Adj)}
    {startId endId : String} {st : DState}
    (hwf : WellFormed g) (hnn : NonnegDistances g)
    (hm : buildAdjacencyList g = .ok m)
    (inv : DInv g m startId endId st) :
    ∀ (p : List String) (x : String) (c ct dx : ℚ),
      ListPathCost g (x :: p) c ct → x ∈ st.visited → st.distances x = .num dx →
      (∃ z q, (x :: p).getLast? = some z ∧ z ∈ st.visited ∧
        st.distances z = .num q ∧ q ≤ dx + c) ∨
      (∃ y q, y ∈ pointIds g ∧ y ∉ st.visited ∧
        st.distances y = .num q ∧ q ≤ dx + c) := by
  intro p
  induction p with
  | nil =>
    intro x c ct dx h hx hdx
    cases h
    exact Or.inl ⟨x, dx, rfl, hx, hdx, by simp⟩
  | cons y rest ih =>
    intro x c ct dx h hx hdx
    cases h with
    | cons hstep htail =>
      rename_i w t c' ct'
      obtain ⟨l, hml, hel⟩ := buildAdjacencyList_complete hm hstep
      obtain ⟨du, hdu, qy, hqy, hqyle⟩ := inv.relaxed x hx l hml _ hel
      have hqy' : st.distances y = .num qy := hqy
      have hqyle' : qy ≤ du + w := hqyle
      have hdueq : du = dx := JSNum.num.inj (hdu.symm.trans hdx)
      have hc'0 : 0 ≤ c' := htail.nonneg hnn
      have hyK : y ∈ pointIds g := hstep.symm.mem_left hwf
      rw [hdueq] at hqyle'
      by_cases hyv : y ∈ st.visited
      · rcases ih y c' ct' qy htail hyv hqy' with
          ⟨z, q, hz1, hz2, hz3, hz4⟩ | ⟨yy, q, h1, h2, h3, h4⟩
        · refine Or.inl ⟨z, q, ?_, hz2, hz3, ?_⟩
          · rw [List.getLast?_cons_cons]; exact hz1
          · calc q ≤ qy + c' := hz4
              _ ≤ (dx + w) + c' := by linarith
              _ = dx + (w + c') := by ring
        · refine Or.inr ⟨yy, q, h1, h2, h3, ?_⟩
          calc q ≤ qy + c' := h4
            _ ≤ (dx + w) + c' := by linarith
            _ = dx + (w + c') := by ring
      · refine Or.inr ⟨y, qy, hyK, hyv, hqy', ?_⟩
        calc qy ≤ dx + w := hqyle'
          _ ≤ dx + (w + c') := by linarith

/-- Master correctness theorem for `findShortestPath` on a well-formed
graph with non-negative distances and endpoints among the point keys:
either it returns `null` and no walk joins the endpoints, or it returns a
route whose path runs from `a` to `b`, whose totals are exactly the sums
of the chosen connection distances and times along that path, and whose
total distance is minimal among all walks joining `a` to `b`. -/
theorem findShortestPath_master {g : Graph} (a b : String)
    (hwf : WellFormed g) (hnn : NonnegDistances g)
    (ha : a ∈ pointIds g) (hb : b ∈ pointIds g) :
    (findShortestPath g a b = .ok none ∧
      ∀ p c ct, ListPathCost g p c ct → p.head? = some a → p.getLast? = some b → False)
    ∨ (∃ r, findShortestPath g a b = .ok (some r) ∧
        r.path.head? = some a ∧ r.path.getLast? = some b ∧
        ListPathCost g r.path r.totalDistance r.totalTime ∧
        ∀ p c ct, ListPathCost g p c ct → p.head? = some a → p.getLast? = some b →
          r.totalDistance ≤ c) := by
  obtain ⟨m, hm, hd, hs⟩ := buildAdjacencyList_ok hwf
  have hinv0 := dinv_init g m a b ha
  have hloop := dinv_loop (pointIds g).length hwf hnn ha hb hd hs hinv0 (by simp)
  set stf := dijkstraLoop g m b (pointIds g).length
      ⟨upd (setAll (pointIds g) JSNum.inf (fun _ => .undefv)) a (.num 0),
       upd (setAll (pointIds g) JSNum.inf (fun _ => .undefv)) a (.num 0),
       setAll (pointIds g) JSPrev.null (fun _ => .undefv), []⟩ with hstf
  obtain ⟨hinvf, hselres⟩ := hloop
  have hfsp_eq : findShortestPath g a b =
      (if stf.distances b = JSNum.inf then .ok none
       else match reconstructPath stf.previous ((pointIds g).length + 2) (.str b) [] with
         | .error f => .error f
         | .ok path => .ok (some ⟨path, (stf.distances b).toQ, (stf.times b).toQ⟩)) := by
    rw [hstf]
    unfold findShortestPath
    rw [hm]
  have hacont : a ∈ stf.visited ∨ stf.visited = [] := by
    rcases hinvf.start_vis with h | h
    · exact Or.inr h
    · exact Or.inl h
  rcases hselres with hselnone | hselsome
  · -- the loop exhausted all reachable points without selecting `b`
    have hbinf : stf.distances b = .inf := by
      cases hdb : stf.distances b with
      | num q =>
        have hbcont : stf.visited.contains b = false :=
          (contains_false_iff _ _).2 hinvf.end_not_vis
        exact absurd hdb (selectMin_none hselnone b hb hbcont q)
      | inf => rfl
      | undefv => exact absurd hdb (hinvf.keys_nund b hb).1
    left
    constructor
    · rw [hfsp_eq, if_pos hbinf]
    · intro p c ct hp hph hpl
      obtain ⟨tail, rfl⟩ : ∃ tail, p = a :: tail := by
        cases p with
        | nil => cases hph
        | cons a0 t =>
          have : a0 = a := Option.some.inj hph
          exact ⟨t, by rw [this]⟩
      have havis : a ∈ stf.visited := by
        rcases hacont with h | h
        · exact h
        · exfalso
          have hacont' : stf.visited.contains a = false := by
            rw [h]; rfl
          exact absurd hinvf.dist_start (selectMin_none hselnone a ha hacont' 0)
      rcases dinv_walk hwf hnn hm hinvf tail a c ct 0 hp havis hinvf.dist_start with
        ⟨z, q, hz1, hz2, _, _⟩ | ⟨y, q, hyK, hyv, hy3, _⟩
      · have hzb : z = b := Option.some.inj (hz1.symm.trans hpl)
        exact hinvf.end_not_vis (hzb ▸ hz2)
      · have hycont : stf.visited.contains y = false := (contains_false_iff _ _).2 hyv
        exact absurd hy3 (selectMin_none hselnone y hyK hycont q)
  · -- the loop selected `b`
    obtain ⟨hbK, hbcont, ⟨D, hD⟩, hminb⟩ := selectMin_some hselsome
    obtain ⟨T, hT⟩ := hinvf.times_sync b D hD
    have hchain : b = a ∨ ∃ u, stf.previous b = .str u ∧
        stf.visited.indexOf u < stf.visited.length := by
      by_cases hab : b = a
      · exact Or.inl hab
      · obtain ⟨u, hu⟩ := hinvf.prev_ex b D hab hD
        have humem := (hinvf.prev_sound b u hu).1
        exact Or.inr ⟨u, hu, List.indexOf_lt_length.2 humem⟩
    obtain ⟨p, hrec, hph, hpl, hpc⟩ :=
      reconstruct_chain hs hinvf stf.visited.length b D T [] hD hT hchain
    have hvlen : stf.visited.length ≤ (pointIds g).length :=
      (List.Nodup.subperm hinvf.vis_nodup (fun x hx => hinvf.vis_sub x hx)).length_le
    have hrec' : reconstructPath stf.previous ((pointIds g).length + 2) (.str b) []
        = .ok (p ++ []) := reconstructPath_mono hrec (by omega)
    rw [List.append_nil] at hrec'
    have hbninf : stf.distances b ≠ .inf := by rw [hD]; simp
    right
    refine ⟨⟨p, D, T⟩, ?_, hph, hpl, hpc, ?_⟩
    · rw [hfsp_eq, if_neg hbninf, hrec', hD, hT]
      rfl
    · intro p' c ct hp' hph' hpl'
      obtain ⟨tail, rfl⟩ : ∃ tail, p' = a :: tail := by
        cases p' with
        | nil => cases hph'
        | cons a0 t =>
          have : a0 = a := Option.some.inj hph'
          exact ⟨t, by rw [this]⟩
      show D ≤ c
      rcases hacont with havis | hvnil
      · rcases dinv_walk hwf hnn hm hinvf tail a c ct 0 hp' havis hinvf.dist_start with
          ⟨z, q, hz1, hz2, _, _⟩ | ⟨y, q, hyK, hyv, hy3, hy4⟩
        · have hzb : z = b := Option.some.inj (hz1.symm.trans hpl')
          exact absurd (hzb ▸ hz2) hinvf.end_not_vis
        · have hycont : stf.visited.contains y = false := (contains_false_iff _ _).2 hyv
          have hmy := hminb y hyK hycont
          rw [hy3, hD] at hmy
          have hDq : D ≤ q := by simpa [jsLt, not_lt] using hmy
          linarith
      · by_cases hab : b = a
        · have hD0 : D = 0 := by
            have := hinvf.dist_start
            rw [← hab] at this
            exact JSNum.num.inj (hD.symm.trans this)
          have := hp'.nonneg hnn
          linarith
        · obtain ⟨u, hu⟩ := hinvf.prev_ex b D hab hD
          have humem := (hinvf.prev_sound b u hu).1
          rw [hvnil] at humem
          cases humem

/-! ## Behaviour on endpoints that are not point keys -/

/-- The loop never writes distances or predecessors of non-keys: every
update targets an adjacency entry id, which is a point key. -/
theorem dloop_outside {g : Graph} {m : String → Option (List Adj)}
    (hwf : WellFormed g) (hd : AdjDom g m) (hs : AdjSound g m)
    (endId : String) (fuel : Nat) (st : DState) (x : String)
    (hx : x ∉ pointIds g) :
    (dijkstraLoop g m endId fuel st).distances x = st.distances x ∧
    (dijkstraLoop g m endId fuel st).previous x = st.previous x := by
  induction fuel generalizing st with
  | zero => exact ⟨rfl, rfl⟩
  | succ fuel ih =>
    by_cases hcond : st.visited.length < (pointIds g).length
    · cases hsel : selectMin (pointIds g) st.visited st.distances with
      | none =>
        have hunf : dijkstraLoop g m endId (fuel + 1) st = st := by
          conv_lhs => unfold dijkstraLoop
          rw [if_pos hcond, hsel]
        rw [hunf]
        exact ⟨rfl, rfl⟩
      | some current =>
        by_cases hce : current = endId
        · have hunf : dijkstraLoop g m endId (fuel + 1) st = st := by
            conv_lhs => unfold dijkstraLoop
            rw [if_pos hcond, hsel]
            show (if current = endId then st else _) = st
            rw [if_pos hce]
          rw [hunf]
          exact ⟨rfl, rfl⟩
        · have hunf : dijkstraLoop g m endId (fuel + 1) st =
              dijkstraLoop g m endId fuel
                (relaxNeighbors current ((m current).getD [])
                  { st with visited := st.visited ++ [current] }) := by
            conv_lhs => unfold dijkstraLoop
            rw [if_pos hcond, hsel]
            show (if current = endId then st else _) = _
            rw [if_neg hce]
          rw [hunf]
          obtain ⟨hcmem, _, _, _⟩ := selectMin_some hsel
          obtain ⟨l, hml⟩ : ∃ l, m current = some l := by
            cases hm : m current with
            | none => exact absurd ((hd current).2 hcmem) (by rw [hm]; simp)
            | some l => exact ⟨l, rfl⟩
          have hgetd : (m current).getD [] = l := by rw [hml]; rfl
          rw [hgetd]
          have huntouched := @relax_untouched current l
            { st with visited := st.visited ++ [current] } x
            (fun e he hex => hx (hex ▸ adj_entry_mem hwf hs hml he))
          obtain ⟨h1, h2⟩ := ih (relaxNeighbors current l
            { st with visited := st.visited ++ [current] })
          exact ⟨h1.trans huntouched.1, h2.trans huntouched.2.2⟩
    · have hunf : dijkstraLoop g m endId (fuel + 1) st = st := by
        conv_lhs => unfold dijkstraLoop
        rw [if_neg hcond]
      rw [hunf]
      exact ⟨rfl, rfl⟩

/-- Unfolding of `findShortestPath` once the adjacency derivation has
succeeded. -/
theorem findShortestPath_eq {g : Graph} {m : String → Option (List Adj)}
    (hm : buildAdjacencyList g = .ok m) (s e : String) :
    findShortestPath g s e =
      (if (dijkstraLoop g m e (pointIds g).length (initState g s)).distances e
          = JSNum.inf then .ok none
       else
         match reconstructPath
             (dijkstraLoop g m e (pointIds g).length (initState g s)).previous
             ((pointIds g).length + 2) (.str e) [] with
         | .error f => .error f
         | .ok path => .ok (some ⟨path,
             ((dijkstraLoop g m e (pointIds g).length (initState g s)).distances e).toQ,
             ((dijkstraLoop g m e (pointIds g).length (initState g s)).times e).toQ⟩)) := by
  unfold findShortestPath
  rw [hm]
  rfl

theorem initState_distances (g : Graph) (s x : String) :
    (initState g s).distances x =
      if x = s then JSNum.num 0
      else if x ∈ pointIds g then JSNum.inf else JSNum.undefv := by
  show upd (setAll (pointIds g) JSNum.inf (fun _ => .undefv)) s (.num 0) x = _
  by_cases hxs : x = s
  · rw [upd_eq_of _ _ hxs, if_pos hxs]
  · rw [upd_ne _ _ hxs, if_neg hxs]
    by_cases hx : x ∈ pointIds g
    · rw [setAll_eq_of_mem _ _ hx, if_pos hx]
    · rw [setAll_eq_of_not_mem _ _ hx, if_neg hx]

theorem initState_previous (g : Graph) (s x : String) :
    (initState g s).previous x =
      if x ∈ pointIds g then JSPrev.null else JSPrev.undefv := by
  show setAll (pointIds g) JSPrev.null (fun _ => .undefv) x = _
  by_cases hx : x ∈ pointIds g
  · rw [setAll_eq_of_mem _ _ hx, if_pos hx]
  · rw [setAll_eq_of_not_mem _ _ hx, if_neg hx]

/-- A start id that is not a point key (with an end id that is) leaves
every key at `Infinity`, so the query returns `null`. -/
theorem findShortestPath_start_missing {g : Graph} {s e : String}
    (hwf : WellFormed g) (hsK : s ∉ pointIds g) (heK : e ∈ pointIds g) :
    findShortestPath g s e = .ok none := by
  obtain ⟨m, hm, hd, hs⟩ := buildAdjacencyList_ok hwf
  have hinit : ∀ pid ∈ pointIds g, (initState g s).distances pid = JSNum.inf := by
    intro pid hpid
    have hps : ¬ pid = s := fun h => hsK (h ▸ hpid)
    rw [initState_distances, if_neg hps, if_pos hpid]
  have hselnone : selectMin (pointIds g) (initState g s).visited
      (initState g s).distances = none := by
    refine selectMin_eq_none ?_
    intro pid hpid _ q hq
    rw [hinit pid hpid] at hq
    cases hq
  cases hN : (pointIds g).length with
  | zero =>
    exfalso
    have := List.length_pos.2 (List.ne_nil_of_mem heK)
    omega
  | succ k =>
    have hloopeq : dijkstraLoop g m e (k + 1) (initState g s) = initState g s := by
      conv_lhs => unfold dijkstraLoop
      rw [if_pos (by show (0 : Nat) < _; omega), hselnone]
    rw [findShortestPath_eq hm, hN, hloopeq, if_pos (hinit e heK)]

/-- An end id that is not a point key slips past the `Infinity` guard as
`undefined` and sends the predecessor walk into its non-terminating case:
the query never returns. -/
theorem findShortestPath_end_missing {g : Graph} {s e : String}
    (hwf : WellFormed g) (heK : e ∉ pointIds g) :
    findShortestPath g s e = .error .divergence := by
  obtain ⟨m, hm, hd, hs⟩ := buildAdjacencyList_ok hwf
  obtain ⟨hdist, hprev⟩ :=
    dloop_outside hwf hd hs e (pointIds g).length (initState g s) e heK
  have hne : (dijkstraLoop g m e (pointIds g).length (initState g s)).distances e
      ≠ JSNum.inf := by
    rw [hdist, initState_distances]
    by_cases hes : e = s
    · rw [if_pos hes]; simp
    · rw [if_neg hes, if_neg heK]; simp
  have hprevundef : (dijkstraLoop g m e (pointIds g).length (initState g s)).previous e
      = JSPrev.undefv := by
    rw [hprev, initState_previous, if_neg heK]
  have hrecdiv : reconstructPath
      (dijkstraLoop g m e (pointIds g).length (initState g s)).previous
      ((pointIds g).length + 2) (.str e) [] = .error .divergence := by
    have e1 : reconstructPath
        (dijkstraLoop g m e (pointIds g).length (initState g s)).previous
        ((pointIds g).length + 2) (.str e) [] =
      reconstructPath
        (dijkstraLoop g m e (pointIds g).length (initState g s)).previous
        ((pointIds g).length + 1)
        ((dijkstraLoop g m e (pointIds g).length (initState g s)).previous e) [e] := rfl
    rw [e1, hprevundef]
    rfl
  rw [findShortestPath_eq hm, if_neg hne, hrecdiv]

/-- A successful (non-`null`) result forces both endpoints to be point
keys: a missing end id diverges and a missing start id yields `null`. -/
theorem findShortestPath_ok_some_endpoints {g : Graph} {s e : String} {r : Route}
    (hwf : WellFormed g) (h : findShortestPath g s e = .ok (some r)) :
    s ∈ pointIds g ∧ e ∈ pointIds g := by
  by_cases heK : e ∈ pointIds g
  · by_cases hsK : s ∈ pointIds g
    · exact ⟨hsK, heK⟩
    · rw [findShortestPath_start_missing hwf hsK heK] at h
      cases h
  · rw [findShortestPath_end_missing hwf heK] at h
    cases h

/-- Packaged form of the master theorem for a successful query. -/
theorem findShortestPath_ok_some_spec {g : Graph} {s e : String} {r : Route}
    (hwf : WellFormed g) (hnn : NonnegDistances g)
    (h : findShortestPath g s e = .ok (some r)) :
    r.path.head? = some s ∧ r.path.getLast? = some e ∧
    ListPathCost g r.path r.totalDistance r.totalTime ∧
    ∀ p c ct, ListPathCost g p c ct → p.head? = some s → p.getLast? = some e →
      r.totalDistance ≤ c := by
  obtain ⟨hsK, heK⟩ := findShortestPath_ok_some_endpoints hwf h
  rcases findShortestPath_master s e hwf hnn hsK heK with ⟨h1, _⟩ | ⟨r', h1, h2, h3, h4, h5⟩
  · rw [h1] at h; cases h
  · rw [h1] at h
    cases h
    exact ⟨h2, h3, h4, h5⟩

theorem initState_times (g : Graph) (s x : String) :
    (initState g s).times x =
      if x = s then JSNum.num 0
      else if x ∈ pointIds g then JSNum.inf else JSNum.undefv := by
  show upd (setAll (pointIds g) JSNum.inf (fun _ => .undefv)) s (.num 0) x = _
  by_cases hxs : x = s
  · rw [upd_eq_of _ _ hxs, if_pos hxs]
  · rw [upd_ne _ _ hxs, if_neg hxs]
    by_cases hx : x ∈ pointIds g
    · rw [setAll_eq_of_mem _ _ hx, if_pos hx]
    · rw [setAll_eq_of_not_mem _ _ hx, if_neg hx]

/-- `findShortestPath(graph, p, p)` for a point key `p`: the very first
selection picks `p` (the only finite distance), which is the end id, so
the loop stops before any relaxation and the reconstruction yields the
one-point path with zero totals. -/
theorem findShortestPath_self {g : Graph} {p : String}
    (hwf : WellFormed g) (hp : p ∈ pointIds g) :
    findShortestPath g p p = .ok (some ⟨[p], 0, 0⟩) := by
  obtain ⟨m, hm, hd, hs⟩ := buildAdjacencyList_ok hwf
  have hselp : selectMin (pointIds g) (initState g p).visited
      (initState g p).distances = some p := by
    cases hsel : selectMin (pointIds g) (initState g p).visited
        (initState g p).distances with
    | none =>
      exfalso
      have hcont : (initState g p).visited.contains p = false := rfl
      have hnone := selectMin_none hsel p hp hcont 0
      rw [initState_distances, if_pos rfl] at hnone
      exact hnone rfl
    | some c =>
      obtain ⟨hcK, _, ⟨q, hq⟩, _⟩ := selectMin_some hsel
      rw [initState_distances] at hq
      by_cases hcp : c = p
      · rw [hcp]
      · rw [if_neg hcp] at hq
        split at hq <;> cases hq
  cases hN : (pointIds g).length with
  | zero =>
    exfalso
    have := List.length_pos.2 (List.ne_nil_of_mem hp)
    omega
  | succ k =>
    have hloopeq : dijkstraLoop g m p (k + 1) (initState g p) = initState g p := by
      conv_lhs => unfold dijkstraLoop
      rw [if_pos (by show (initState g p).visited.length < (pointIds g).length; show (0 : Nat) < _; omega), hselp]
      show (if p = p then initState g p else _) = initState g p
      rw [if_pos rfl]
    have hloopeq' : dijkstraLoop g m p (pointIds g).length (initState g p)
        = initState g p := by rw [hN]; exact hloopeq
    have hguard : (initState g p).distances p ≠ JSNum.inf := by
      rw [initState_distances, if_pos rfl]; simp
    have hrec : reconstructPath (initState g p).previous ((pointIds g).length + 2)
        (.str p) [] = .ok [p] := by
      have e1 : reconstructPath (initState g p).previous ((pointIds g).length + 2)
          (.str p) [] = reconstructPath (initState g p).previous
          ((pointIds g).length + 1) ((initState g p).previous p) [p] := rfl
      rw [e1, initState_previous, if_pos hp]
      rfl
    rw [findShortestPath_eq hm, hloopeq', if_neg hguard, hrec, initState_distances,
      initState_times, if_pos rfl]
    rfl

/-! ## Multi-stop router lemmas -/

theorem findNearest_err {g : Graph} {pos d : String} {rest : List String}
    {acc : Option (String × Route)} {f : Fault}
    (h : findShortestPath g pos d = .error f) :
    findNearest g pos (d :: rest) acc = .error f := by
  unfold findNearest
  rw [h]

theorem findNearest_all_none {g : Graph} {pos : String} {dests : List String}
    (h : ∀ d ∈ dests, findShortestPath g pos d = .ok none) :
    ∀ acc, findNearest g pos dests acc = .ok acc := by
  induction dests with
  | nil => intro acc; rfl
  | cons d rest ih =>
    intro acc
    have e1 : findNearest g pos (d :: rest) acc = findNearest g pos rest acc := by
      conv_lhs => unfold findNearest
      rw [h d (List.mem_cons_self _ _)]
    rw [e1]
    exact ih (fun d' hd' => h d' (List.mem_cons_of_mem _ hd')) acc

theorem findNearest_pair_some {g : Graph} {s d : String} {r : Route}
    (h : findShortestPath g s d = .ok (some r)) :
    findNearest g s [d, d] none = .ok (some (d, r)) := by
  have e1 : findNearest g s [d, d] none = findNearest g s [d] (some (d, r)) := by
    conv_lhs => unfold findNearest
    rw [h]
  have e2 : findNearest g s [d] (some (d, r)) = findNearest g s [] (some (d, r)) := by
    conv_lhs => unfold findNearest
    rw [h]
    show (if r.totalDistance < r.totalDistance then findNearest g s [] (some (d, r))
      else findNearest g s [] (some (d, r))) = findNearest g s [] (some (d, r))
    rw [if_neg (lt_irrefl r.totalDistance)]
  rw [e1, e2]
  rfl

theorem greedyLoop_stop (g : Graph) (fuel : Nat) (pos : String) (total : Route) :
    greedyLoop g (fuel + 1) pos [] total = .ok total := by
  conv_lhs => unfold greedyLoop
  rw [if_neg (by simp)]

theorem greedyLoop_nearest_none {g : Graph} {fuel : Nat} {pos : String}
    {remaining : List String} {total : Route} (hne : remaining.length > 0)
    (hfn : findNearest g pos remaining none = .ok none) :
    greedyLoop g (fuel + 1) pos remaining total = .ok total := by
  conv_lhs => unfold greedyLoop
  rw [if_pos hne, hfn]

theorem greedyLoop_err {g : Graph} {fuel : Nat} {pos : String}
    {remaining : List String} {total : Route} {f : Fault} (hne : remaining.length > 0)
    (hfn : findNearest g pos remaining none = .error f) :
    greedyLoop g (fuel + 1) pos remaining total = .error f := by
  conv_lhs => unfold greedyLoop
  rw [if_pos hne, hfn]

theorem greedyLoop_step {g : Graph} {fuel : Nat} {pos nearest : String}
    {remaining : List String} {total : Route} {r : Route} (hne : remaining.length > 0)
    (hfn : findNearest g pos remaining none = .ok (some (nearest, r))) :
    greedyLoop g (fuel + 1) pos remaining total =
      greedyLoop g fuel nearest (remaining.filter (fun d => d != nearest))
        ⟨total.path ++ r.path.drop 1, total.totalDistance + r.totalDistance,
         total.totalTime + r.totalTime⟩ := by
  conv_lhs => unfold greedyLoop
  rw [if_pos hne, hfn]

theorem findOptimalRoute_multi (g : Graph) (s d1 d2 : String) (rest : List String) :
    findOptimalRoute g s (d1 :: d2 :: rest) =
      match greedyLoop g (d1 :: d2 :: rest).length s (d1 :: d2 :: rest)
          ⟨[s], 0, 0⟩ with
      | .error f => .error f
      | .ok r => .ok (some r) := rfl

theorem path_head_cons {l : List String} {s : String} (h : l.head? = some s) :
    l = s :: l.tail := by
  cases l with
  | nil => cases h
  | cons a t =>
    have ha : a = s := Option.some.inj h
    rw [ha]
    rfl

/-- Duplicate-destination collapse, valid whenever the one-destination
query does not return `null`. -/
theorem findOptimalRoute_pair_eq {g : Graph} {s d : String}
    (hwf : WellFormed g) (hnn : NonnegDistances g)
    (h : findShortestPath g s d ≠ .ok none) :
    findOptimalRoute g s [d, d] = findOptimalRoute g s [d] := by
  have e1 : findOptimalRoute g s [d] = findShortestPath g s d := rfl
  have hl2 : (([d, d] : List String)).length = 1 + 1 := rfl
  cases hsp : findShortestPath g s d with
  | error f =>
    rw [e1, hsp, findOptimalRoute_multi, hl2,
      greedyLoop_err (by simp) (findNearest_err hsp)]
  | ok o =>
    cases o with
    | none => exact absurd hsp h
    | some r =>
      obtain ⟨hh, _, _, _⟩ := findShortestPath_ok_some_spec hwf hnn hsp
      rw [e1, hsp, findOptimalRoute_multi, hl2,
        greedyLoop_step (by simp) (findNearest_pair_some hsp)]
      have hfilter : (([d, d] : List String).filter (fun x => x != d)) = [] := by simp
      have hl1 : (1 : Nat) = 0 + 1 := rfl
      rw [hfilter, hl1, greedyLoop_stop]
      show Except.ok (some (⟨([s] : List String) ++ r.path.drop 1,
        0 + r.totalDistance, 0 + r.totalTime⟩ : Route)) = Except.ok (some r)
      have hpath : ([s] : List String) ++ r.path.drop 1 = r.path := by
        conv_rhs => rw [path_head_cons hh]
        rw [List.drop_one]
        rfl
      rw [hpath, zero_add, zero_add]

/-- When no destination is reachable at the first greedy step, the source
returns the accumulated degenerate route, a success value. -/
theorem findOptimalRoute_first_step_unreachable {g : Graph} {s : String}
    {dests : List String} (hlen : 2 ≤ dests.length)
    (h : ∀ d ∈ dests, findShortestPath g s d = .ok none) :
    findOptimalRoute g s dests = .ok (some ⟨[s], 0, 0⟩) := by
  cases dests with
  | nil => simp at hlen
  | cons d1 r1 =>
    cases r1 with
    | nil => simp at hlen
    | cons d2 rest =>
      have hl2 : ((d1 :: d2 :: rest : List String)).length = (d2 :: rest).length + 1 := rfl
      rw [findOptimalRoute_multi, hl2,
        greedyLoop_nearest_none (by simp) (findNearest_all_none h none)]

/-- Any query on a graph with a connection naming a missing point id
throws during adjacency derivation. -/
theorem findShortestPath_malformed {g : Graph} (a b : String)
    (hbad : ∃ c ∈ g.connections, c.«from» ∉ pointIds g ∨ c.«to» ∉ pointIds g) :
    findShortestPath g a b = .error .typeError := by
  unfold findShortestPath
  rw [buildAdjacencyList_err hbad]

theorem findOptimalRoute_malformed {g : Graph} (s : String) {dests : List String}
    (hbad : ∃ c ∈ g.connections, c.«from» ∉ pointIds g ∨ c.«to» ∉ pointIds g)
    (hne : dests ≠ []) : findOptimalRoute g s dests = .error .typeError := by
  cases dests with
  | nil => exact absurd rfl hne
  | cons d1 r1 =>
    cases r1 with
    | nil => exact findShortestPath_malformed s d1 hbad
    | cons d2 rest =>
      have hl2 : ((d1 :: d2 :: rest : List String)).length = (d2 :: rest).length + 1 := rfl
      rw [findOptimalRoute_multi, hl2,
        greedyLoop_err (by simp) (findNearest_err (findShortestPath_malformed s d1 hbad))]

/-- Equal-distance symmetry of the search, from optimality in both
directions and reversibility of walks. -/
theorem findShortestPath_symm {g : Graph} {a b : String}
    (hwf : WellFormed g) (hnn : NonnegDistances g)
    (ha : a ∈ pointIds g) (hb : b ∈ pointIds g)
    (hpath : ∃ p c ct, ListPathCost g p c ct ∧ p.head? = some a ∧ p.getLast? = some b) :
    ∃ r1 r2, findShortestPath g a b = .ok (some r1) ∧
      findShortestPath g b a = .ok (some r2) ∧
      r1.totalDistance = r2.totalDistance := by
  obtain ⟨p, c, ct, hp, hh, hl⟩ := hpath
  rcases findShortestPath_master a b hwf hnn ha hb with
    ⟨_, hnopath⟩ | ⟨r1, h1, hh1, hl1, hc1, hmin1⟩
  · exact absurd hp (fun hp' => hnopath p c ct hp' hh hl)
  rcases findShortestPath_master b a hwf hnn hb ha with
    ⟨_, hnopath⟩ | ⟨r2, h2, hh2, hl2, hc2, hmin2⟩
  · exfalso
    exact hnopath p.reverse c ct hp.reverse
      (by rw [List.head?_reverse]; exact hl) (by rw [List.getLast?_reverse]; exact hh)
  refine ⟨r1, r2, h1, h2, le_antisymm ?_ ?_⟩
  · exact hmin1 r2.path.reverse r2.totalDistance r2.totalTime hc2.reverse
      (by rw [List.head?_reverse]; exact hl2) (by rw [List.getLast?_reverse]; exact hh2)
  · exact hmin2 r1.path.reverse r1.totalDistance r1.totalTime hc1.reverse
      (by rw [List.head?_reverse]; exact hl1) (by rw [List.getLast?_reverse]; exact hh1)

theorem IsStep.uniqueStep {g : Graph} {u v : String} {w t w' t' : ℚ}
    (hnp : NoParallel g) (h1 : IsStep g u v w t) (h2 : IsStep g u v w' t') :
    w = w' ∧ t = t' := by
  obtain ⟨c1, hc1, hdir1, hw1, ht1⟩ := h1
  obtain ⟨c2, hc2, hdir2, hw2, ht2⟩ := h2
  have hpair : c1.distance = c2.distance ∧ c1.time = c2.time := by
    refine hnp c1 hc1 c2 hc2 ?_
    rcases hdir1 with ⟨e1, e2⟩ | ⟨e1, e2⟩ <;> rcases hdir2 with ⟨f1, f2⟩ | ⟨f1, f2⟩ <;>
      simp [e1, e2, f1, f2]
  exact ⟨hw1.symm.trans (hpair.1.trans hw2), ht1.symm.trans (hpair.2.trans ht2)⟩

theorem ListPathCost.uniqueCost {g : Graph} (hnp : NoParallel g)
    {p : List String} {c ct : ℚ} (h1 : ListPathCost g p c ct) :
    ∀ {c' ct' : ℚ}, ListPathCost g p c' ct' → c = c' ∧ ct = ct' := by
  induction h1 with
  | single a =>
    intro c' ct' h2
    cases h2
    exact ⟨rfl, rfl⟩
  | cons hs h1' ih =>
    intro c' ct' h2
    cases h2 with
    | cons hs' h2' =>
      obtain ⟨hw, ht⟩ := IsStep.uniqueStep hnp hs hs'
      obtain ⟨hc, hct⟩ := ih h2'
      exact ⟨by rw [hw, hc], by rw [ht, hct]⟩

/-! ## Claim theorems -/

/-- C1: for every graph satisfying the data-model invariants and every
pair of point ids `a`, `b` in `graph.points`, when
`shortestPath(graph, a, b)` returns a Route, its `totalDistance` equals
the sum of the connection distances along consecutive pairs of the
returned path (stated by `ListPathCost`, which also forces every
consecutive pair to be joined by a connection), and no path between `a`
and `b` has strictly lower total distance. -/
theorem C1_shortest_path_sound_optimal {g : Graph} {a b : String} {r : Route}
    (hwf : WellFormed g) (hnn : NonnegDistances g)
    (ha : a ∈ pointIds g) (hb : b ∈ pointIds g)
    (h : findShortestPath g a b = .ok (some r)) :
    ListPathCost g r.path r.totalDistance r.totalTime ∧
    ∀ p c ct, ListPathCost g p c ct → p.head? = some a → p.getLast? = some b →
      r.totalDistance ≤ c := by
  obtain ⟨_, _, h3, h4⟩ := findShortestPath_ok_some_spec hwf hnn h
  exact ⟨h3, h4⟩

theorem C1_shortest_path_sound_optimal_witness :
    ListPathCost sampleGraph (["A", "E", "Y"] : List String) (6/5) 8 ∧
    ∀ p c ct, ListPathCost sampleGraph p c ct → p.head? = some "A" →
      p.getLast? = some "Y" → (6/5 : ℚ) ≤ c :=
  @C1_shortest_path_sound_optimal sampleGraph "A" "Y" ⟨["A", "E", "Y"], 6/5, 8⟩
    (by with_unfolding_all decide) (by with_unfolding_all decide)
    (by decide) (by decide) (by with_unfolding_all decide)

/-- C2 (corrected): the source has no InvalidEndpoint outcome. A missing
`startId` (with `endId` present) yields the `null` success value, and a
missing `endId` makes the reconstruction loop run forever — an
uncontrolled fault, not an explicit result value. -/
theorem C2_missing_endpoint_behavior {g : Graph} (s e : String)
    (hwf : WellFormed g) :
    (s ∉ pointIds g → e ∈ pointIds g → findShortestPath g s e = .ok none) ∧
    (e ∉ pointIds g → findShortestPath g s e = .error .divergence) :=
  ⟨fun hs he => findShortestPath_start_missing hwf hs he,
   fun he => findShortestPath_end_missing hwf he⟩

theorem C2_missing_endpoint_behavior_witness :
    findShortestPath sampleGraph "Z" "A" = .ok none ∧
    findShortestPath sampleGraph "A" "Z" = .error .divergence :=
  ⟨(C2_missing_endpoint_behavior "Z" "A" (by with_unfolding_all decide)).1
      (by decide) (by decide),
   (C2_missing_endpoint_behavior "A" "Z" (by with_unfolding_all decide)).2
      (by decide)⟩

theorem C2_counterexample :
    findShortestPath sampleGraph "A" "Z" = .error .divergence := by
  with_unfolding_all decide

/-- C3 (corrected): when no destination of a multi-destination query is
reachable at the first greedy step, the router does not return the
NotFound failure (`null`); it returns a success Route whose path is just
`[start]` with zero distance and time. -/
theorem C3_first_step_unreachable_returns_success {g : Graph} {s : String}
    {dests : List String} (hlen : 2 ≤ dests.length)
    (h : ∀ d ∈ dests, findShortestPath g s d = .ok none) :
    findOptimalRoute g s dests = .ok (some ⟨[s], 0, 0⟩) :=
  findOptimalRoute_first_step_unreachable hlen h

theorem C3_first_step_unreachable_returns_success_witness :
    findOptimalRoute isolatedTriple "A" ["H", "K"] =
      .ok (some ⟨["A"], 0, 0⟩) :=
  C3_first_step_unreachable_returns_success (by decide)
    (by with_unfolding_all decide)

theorem C3_counterexample :
    findOptimalRoute isolatedTriple "A" ["H", "K"] ≠ .ok none ∧
    findOptimalRoute isolatedTriple "A" ["H", "K"] = .ok (some ⟨["A"], 0, 0⟩) := by
  with_unfolding_all decide

/-- C4 (corrected): a connection naming a point id absent from
`graph.points` makes adjacency derivation crash with a TypeError (an
uncontrolled fault, reading `.push` of `undefined`), rather than fail
with an explicit MalformedGraph value; `optimalRoute` reaches the graph
only when the destination list is non-empty. -/
theorem C4_malformed_graph_faults {g : Graph} (a b s : String)
    {dests : List String}
    (hbad : ∃ c ∈ g.connections, c.«from» ∉ pointIds g ∨ c.«to» ∉ pointIds g)
    (hne : dests ≠ []) :
    findShortestPath g a b = .error .typeError ∧
    findOptimalRoute g s dests = .error .typeError :=
  ⟨findShortestPath_malformed a b hbad, findOptimalRoute_malformed s hbad hne⟩

theorem C4_malformed_graph_faults_witness :
    findShortestPath danglingGraph "A" "A" = .error .typeError ∧
    findOptimalRoute danglingGraph "A" ["A"] = .error .typeError :=
  C4_malformed_graph_faults "A" "A" "A" (by decide) (by decide)

theorem C4_counterexample :
    findShortestPath danglingGraph "A" "A" = .error .typeError := by
  with_unfolding_all decide

/-- C5 (corrected): `optimalRoute(graph, start, [d, d])` behaves
identically to `optimalRoute(graph, start, [d])` whenever the
one-destination query does not return `null`; when it does return
`null`, the duplicated list instead yields the degenerate success Route
`[start]`, so the two calls differ. -/
theorem C5_duplicate_destination_collapse {g : Graph} {s d : String}
    (hwf : WellFormed g) (hnn : NonnegDistances g)
    (h : findShortestPath g s d ≠ .ok none) :
    findOptimalRoute g s [d, d] = findOptimalRoute g s [d] :=
  findOptimalRoute_pair_eq hwf hnn h

theorem C5_duplicate_destination_collapse_witness :
    findOptimalRoute sampleGraph "A" ["Y", "Y"] =
      findOptimalRoute sampleGraph "A" ["Y"] :=
  C5_duplicate_destination_collapse (by with_unfolding_all decide)
    (by with_unfolding_all decide) (by with_unfolding_all decide)

theorem C5_counterexample :
    findOptimalRoute isolatedPair "A" ["B", "B"] ≠
      findOptimalRoute isolatedPair "A" ["B"] := by
  with_unfolding_all decide

/-- C6: for endpoints of `graph.points` joined by some path, both
directed queries succeed and return equal `totalDistance`, every
connection being traversable in both directions. -/
theorem C6_symmetric_distance {g : Graph} {a b : String}
    (hwf : WellFormed g) (hnn : NonnegDistances g)
    (ha : a ∈ pointIds g) (hb : b ∈ pointIds g)
    (hpath : ∃ p c ct, ListPathCost g p c ct ∧ p.head? = some a ∧
      p.getLast? = some b) :
    ∃ r1 r2, findShortestPath g a b = .ok (some r1) ∧
      findShortestPath g b a = .ok (some r2) ∧
      r1.totalDistance = r2.totalDistance :=
  findShortestPath_symm hwf hnn ha hb hpath

theorem C6_symmetric_distance_witness :
    ∃ r1 r2, findShortestPath sampleGraph "A" "Y" = .ok (some r1) ∧
      findShortestPath sampleGraph "Y" "A" = .ok (some r2) ∧
      r1.totalDistance = r2.totalDistance := by
  refine C6_symmetric_distance (by with_unfolding_all decide)
    (by with_unfolding_all decide) (by decide) (by decide) ?_
  refine ⟨["A", "E", "Y"], 0.7 + (0.5 + 0), 5 + (3 + 0), ?_, rfl, rfl⟩
  refine ListPathCost.cons ⟨⟨"A", "E", 0.7, 5⟩, ?_, Or.inl ⟨rfl, rfl⟩, rfl, rfl⟩
    (ListPathCost.cons ⟨⟨"E", "Y", 0.5, 3⟩, ?_, Or.inl ⟨rfl, rfl⟩, rfl, rfl⟩
      (ListPathCost.single "Y"))
  · with_unfolding_all decide
  · with_unfolding_all decide

/-- C7: a self query on a present point id returns the degenerate Route
with path `[p]`, distance 0 and time 0. -/
theorem C7_self_route {g : Graph} {p : String}
    (hwf : WellFormed g) (hp : p ∈ pointIds g) :
    findShortestPath g p p = .ok (some ⟨[p], 0, 0⟩) :=
  findShortestPath_self hwf hp

theorem C7_self_route_witness :
    findShortestPath sampleGraph "A" "A" = .ok (some ⟨["A"], 0, 0⟩) :=
  C7_self_route (by with_unfolding_all decide) (by decide)

/-- C8: a single-destination multi-stop query delegates to the
shortest-path engine and returns its result unchanged, definitionally. -/
theorem C8_single_destination_delegates (g : Graph) (s d : String) :
    findOptimalRoute g s [d] = findShortestPath g s d := rfl

/-- C9 (corrected): an empty destination list returns `null` — the very
same value the source uses for the unreachable-destination failure, so
the two failure kinds are not distinguishable by the caller. -/
theorem C9_empty_destinations_null (g : Graph) (s : String) :
    findOptimalRoute g s [] = .ok none := rfl

theorem C9_counterexample :
    findOptimalRoute isolatedPair "A" [] = .ok none ∧
    findOptimalRoute isolatedPair "A" ["B"] = .ok none := by
  with_unfolding_all decide

/-- C10: on success the returned `totalTime` is the sum, over
consecutive pairs of the returned path, of the time of the connection
chosen by the winning distance relaxation (`ListPathCost` records
exactly the chosen connections); without parallel connections that sum
is determined by the path alone, hence it is simply the sum of the
connection times along the path. -/
theorem C10_total_time_sound {g : Graph} {a b : String} {r : Route}
    (hwf : WellFormed g) (hnn : NonnegDistances g) (hnp : NoParallel g)
    (h : findShortestPath g a b = .ok (some r)) :
    ListPathCost g r.path r.totalDistance r.totalTime ∧
    ∀ c ct, ListPathCost g r.path c ct → c = r.totalDistance ∧
      ct = r.totalTime := by
  obtain ⟨_, _, h3, _⟩ := findShortestPath_ok_some_spec hwf hnn h
  refine ⟨h3, fun c ct h' => ?_⟩
  obtain ⟨h1, h2⟩ := ListPathCost.uniqueCost hnp h3 h'
  exact ⟨h1.symm, h2.symm⟩

theorem C10_total_time_sound_witness :
    ListPathCost sampleGraph (["A", "E", "Y"] : List String) (6/5) 8 ∧
    ∀ c ct, ListPathCost sampleGraph (["A", "E", "Y"] : List String) c ct →
      c = 6/5 ∧ ct = 8 :=
  @C10_total_time_sound sampleGraph "A" "Y" ⟨["A", "E", "Y"], 6/5, 8⟩
    (by with_unfolding_all decide) (by with_unfolding_all decide)
    (by with_unfolding_all decide) (by with_unfolding_all decide)
